import Mathlib

/-!
The bit-permutation engine of `pinswap.c`.

A shallow embedding of `pinswap.c`: the size check, the `-a` / `-d` bitmask
checks, the 256-entry `bitswap` table, the output-index expressions of the two
copy loops and the copy loops themselves, the pinout table with the diagram
drawn from it, and the option loop of `main` with the files it opens.

Conventions.
* C arrays (`address_map[20]`, `data_map[8]`, `bitswap`, `input`, `output`)
  are `List Nat`; a read `a[k]` is `a.getD k 0`.
* `long`, `unsigned` and the fast integer types are `Nat`; a store into a
  `uint8_t` is written with an explicit `% 256`, a conversion into the
  `uint_fast32_t` accumulator with an explicit `% 2 ^ w`.
* A write outside a buffer is undefined in C; the copy loop returns `none`
  there.
-/

namespace Pinswap



/-! ## Static tables -/

/-- Macro `#define A 9+`: the signal index of address line `n`. -/
def A (n : Nat) : Nat := 9 + n

/-- Macro `#define D 1+`: the signal index of data line `n`. -/
def D (n : Nat) : Nat := 1 + n

/-- Macro `#define NONE 0`: the signal index of an unconnected pin. -/
def NONE : Nat := 0

/-- The 29-entry `name` table. -/
def name : List String :=
  [ "",
    "D0", "D1", "D2", "D3", "D4", "D5", "D6", "D7",
    "A0", "A1", "A2", "A3", "A4", "A5", "A6", "A7",
    "A8", "A9", "A10", "A11", "A12", "A13", "A14", "A15",
    "A16", "A17", "A18", "A19" ]

/-! ## Output-index expressions of the copy loops -/

/-- Index expression of the non `-r` loop, `output[...]` at lines 265-284. -/
def forward_index (address_map : List Nat) (i : Nat) : Nat :=
  (i >>> address_map.getD 19 0 &&& 1) <<< 19 |||
  (i >>> address_map.getD 18 0 &&& 1) <<< 18 |||
  (i >>> address_map.getD 17 0 &&& 1) <<< 17 |||
  (i >>> address_map.getD 16 0 &&& 1) <<< 16 |||
  (i >>> address_map.getD 15 0 &&& 1) <<< 15 |||
  (i >>> address_map.getD 14 0 &&& 1) <<< 14 |||
  (i >>> address_map.getD 13 0 &&& 1) <<< 13 |||
  (i >>> address_map.getD 12 0 &&& 1) <<< 12 |||
  (i >>> address_map.getD 11 0 &&& 1) <<< 11 |||
  (i >>> address_map.getD 10 0 &&& 1) <<< 10 |||
  (i >>> address_map.getD 9 0 &&& 1) <<< 9 |||
  (i >>> address_map.getD 8 0 &&& 1) <<< 8 |||
  (i >>> address_map.getD 7 0 &&& 1) <<< 7 |||
  (i >>> address_map.getD 6 0 &&& 1) <<< 6 |||
  (i >>> address_map.getD 5 0 &&& 1) <<< 5 |||
  (i >>> address_map.getD 4 0 &&& 1) <<< 4 |||
  (i >>> address_map.getD 3 0 &&& 1) <<< 3 |||
  (i >>> address_map.getD 2 0 &&& 1) <<< 2 |||
  (i >>> address_map.getD 1 0 &&& 1) <<< 1 |||
  (i >>> address_map.getD 0 0 &&& 1) <<< 0

/-- Index expression of the `-r` loop, `output[...]` at lines 228-247. -/
def reverse_index (address_map : List Nat) (i : Nat) : Nat :=
  (i >>> 19 &&& 1) <<< address_map.getD 19 0 |||
  (i >>> 18 &&& 1) <<< address_map.getD 18 0 |||
  (i >>> 17 &&& 1) <<< address_map.getD 17 0 |||
  (i >>> 16 &&& 1) <<< address_map.getD 16 0 |||
  (i >>> 15 &&& 1) <<< address_map.getD 15 0 |||
  (i >>> 14 &&& 1) <<< address_map.getD 14 0 |||
  (i >>> 13 &&& 1) <<< address_map.getD 13 0 |||
  (i >>> 12 &&& 1) <<< address_map.getD 12 0 |||
  (i >>> 11 &&& 1) <<< address_map.getD 11 0 |||
  (i >>> 10 &&& 1) <<< address_map.getD 10 0 |||
  (i >>> 9 &&& 1) <<< address_map.getD 9 0 |||
  (i >>> 8 &&& 1) <<< address_map.getD 8 0 |||
  (i >>> 7 &&& 1) <<< address_map.getD 7 0 |||
  (i >>> 6 &&& 1) <<< address_map.getD 6 0 |||
  (i >>> 5 &&& 1) <<< address_map.getD 5 0 |||
  (i >>> 4 &&& 1) <<< address_map.getD 4 0 |||
  (i >>> 3 &&& 1) <<< address_map.getD 3 0 |||
  (i >>> 2 &&& 1) <<< address_map.getD 2 0 |||
  (i >>> 1 &&& 1) <<< address_map.getD 1 0 |||
  (i >>> 0 &&& 1) <<< address_map.getD 0 0

/-! ## The `bitswap` table -/

/-- Right-hand side of `bitswap[i] = ...` in the non `-r` branch (lines
254-261), before the store into the `uint8_t` entry. -/
def forward_byte (data_map : List Nat) (i : Nat) : Nat :=
  (i >>> data_map.getD 7 0 &&& 1) <<< 7 |||
  (i >>> data_map.getD 6 0 &&& 1) <<< 6 |||
  (i >>> data_map.getD 5 0 &&& 1) <<< 5 |||
  (i >>> data_map.getD 4 0 &&& 1) <<< 4 |||
  (i >>> data_map.getD 3 0 &&& 1) <<< 3 |||
  (i >>> data_map.getD 2 0 &&& 1) <<< 2 |||
  (i >>> data_map.getD 1 0 &&& 1) <<< 1 |||
  (i >>> data_map.getD 0 0 &&& 1) <<< 0

/-- Right-hand side of `bitswap[i] = ...` in the `-r` branch (lines 217-224),
before the store into the `uint8_t` entry. -/
def reverse_byte (data_map : List Nat) (i : Nat) : Nat :=
  (i >>> 7 &&& 1) <<< data_map.getD 7 0 |||
  (i >>> 6 &&& 1) <<< data_map.getD 6 0 |||
  (i >>> 5 &&& 1) <<< data_map.getD 5 0 |||
  (i >>> 4 &&& 1) <<< data_map.getD 4 0 |||
  (i >>> 3 &&& 1) <<< data_map.getD 3 0 |||
  (i >>> 2 &&& 1) <<< data_map.getD 2 0 |||
  (i >>> 1 &&& 1) <<< data_map.getD 1 0 |||
  (i >>> 0 &&& 1) <<< data_map.getD 0 0

/-- The table filled by `for( i = 0; i < 256; i++ ) bitswap[i] = ...`; each
entry is a `uint8_t`, hence the `% 256`. -/
def bitswap (reverse : Bool) (data_map : List Nat) : List Nat :=
  (List.range 256).map fun i =>
    (if reverse then reverse_byte data_map i else forward_byte data_map i) % 256

/-! ## The copy loop -/

/-- The loop `for( long i = 0; i < length; i++ ) output[index(i)] = bitswap[input[i]];`
run for its first `n` iterations on the buffer `output`.  A write outside the
buffer has no defined result and yields `none`. -/
def copy_loop (index : Nat → Nat) (table input : List Nat) : Nat → List Nat → Option (List Nat)
  | 0, output => some output
  | n + 1, output =>
    match copy_loop index table input n output with
    | none => none
    | some out =>
      if index n < out.length then
        some (out.set (index n) (table.getD (input.getD n 0) 0))
      else none

/-- Lines 213-286: build `bitswap`, then run the copy loop over the whole
input.  `output` is the buffer returned by `malloc( length )`, whose initial
content is arbitrary. -/
def transform (reverse : Bool) (address_map data_map input output : List Nat) :
    Option (List Nat) :=
  if reverse then
    copy_loop (reverse_index address_map) (bitswap true data_map) input input.length output
  else
    copy_loop (forward_index address_map) (bitswap false data_map) input input.length output

/-! ## The size check -/

/-- Lines 73-78: `highest_address_bit` after the loop over `i = 9 .. 19`. -/
def find_highest_address_bit (length : Int) : Nat :=
  (List.range' 9 11).foldl
    (fun highest_address_bit i =>
      if length = ((1 <<< (i + 1) : Nat) : Int) then i else highest_address_bit) 0

/-- The three complaints of lines 81-93 and the one of line 69. -/
inductive SizeError where
  | undetermined
  | too_small
  | too_big
  | not_power_of_two
  deriving DecidableEq, Repr

/-- Lines 66-95: the value of `highest_address_bit` the run continues with, or
the reason it stops. -/
def size_check (length : Int) : Except SizeError Nat :=
  if length < 0 then .error .undetermined
  else
    let highest_address_bit := find_highest_address_bit length
    if highest_address_bit = 0 then
      if length < ((1 <<< 10 : Nat) : Int) then .error .too_small
      else if length > ((1 <<< 20 : Nat) : Int) then .error .too_big
      else .error .not_power_of_two
    else .ok highest_address_bit

/-! ## The `-a` and `-d` checks

The text after `-a` is abstracted to its comma-separated fields: the list
holds, for each field in turn, what `sscanf( string, "%u", ... )` stores
(`none` when it converts nothing and leaves the entry as it was).  `string`
becomes `NULL` exactly when the fields are used up. -/

/-- The effect of `sscanf( string, "%u", &map[j] )` on the map: the value of the
field is stored in entry `j`, or the entry is left alone when nothing converts. -/
def sscanf_store (field : Option Nat) (map : List Nat) (j : Nat) : List Nat :=
  match field with
  | some v => map.set j v
  | none => map

/-- The `int` value of `1 << v` for `v < 32` on a 32-bit two's complement
`int`: `1 << 31` is the most negative value. -/
def int_one_shl (v : Nat) : Int :=
  if v = 31 then -((2 : Int) ^ 31) else ((1 <<< v : Nat) : Int)

/-- Conversion of an `int` to an unsigned type of `w` bits. -/
def to_unsigned (w : Nat) (x : Int) : Nat := (x % (2 : Int) ^ w).toNat

/-- The loop of lines 108-119 with `n` iterations left, so that `j = n - 1`;
`j--` on `j = 0` wraps above `highest_address_bit` and ends the loop.  The
accumulator `address_bits` is a `uint_fast32_t` of `w` bits.  The result is
`none` when `string` is `NULL` at the top of an iteration. -/
def address_scan (w : Nat) :
    Nat → List (Option Nat) → List Nat → Nat → Option (List Nat × Nat)
  | 0, _, address_map, address_bits => some (address_map, address_bits)
  | _ + 1, [], _, _ => none
  | j + 1, field :: rest, address_map, address_bits =>
    let address_map := sscanf_store field address_map j
    let address_bits :=
      if address_map.getD j 0 < 32 then
        address_bits ||| to_unsigned w (int_one_shl (address_map.getD j 0))
      else address_bits
    address_scan w j rest address_map address_bits

/-- The `-a` branch, lines 106-124: the new `address_map`, or `none` for
`Invalid parameter`. -/
def parse_address (w highest_address_bit : Nat) (fields : List (Option Nat))
    (address_map : List Nat) : Option (List Nat) :=
  match address_scan w (highest_address_bit + 1) fields address_map 0 with
  | none => none
  | some (address_map, address_bits) =>
    if address_bits ≠ (1 <<< (highest_address_bit + 1)) - 1 then none
    else some address_map

/-- The loop of lines 130-141 with `n` iterations left (`j = n - 1`).
`data_bits` is a `uint_fast8_t`; the guard keeps `1 << data_map[j]` below
`256`, and the store is written with `% 256`. -/
def data_scan : Nat → List (Option Nat) → List Nat → Nat → Option (List Nat × Nat)
  | 0, _, data_map, data_bits => some (data_map, data_bits)
  | _ + 1, [], _, _ => none
  | j + 1, field :: rest, data_map, data_bits =>
    let data_map := sscanf_store field data_map j
    let data_bits :=
      if data_map.getD j 0 < 8 then (data_bits ||| 1 <<< data_map.getD j 0) % 256
      else data_bits
    data_scan j rest data_map data_bits

/-- The `-d` branch, lines 128-146. -/
def parse_data (fields : List (Option Nat)) (data_map : List Nat) : Option (List Nat) :=
  match data_scan 8 fields data_map 0 with
  | none => none
  | some (data_map, data_bits) =>
    if data_bits ≠ (1 <<< 8) - 1 then none else some data_map

/-- The values the check of an option looks at, in the order it meets them:
entry `j = n - 1, ..., 0` of the map after the store of its field. -/
def checked_values (n : Nat) (fields : List (Option Nat)) (map : List Nat) : List Nat :=
  (List.range n).map fun k => (fields.getD k none).getD (map.getD (n - 1 - k) 0)

/-! ## The name table of the diagram -/

/-- Lines 176-185: `swapname`. -/
def swapname (address_map data_map : List Nat) : List String :=
  let swapname := (List.replicate 29 "").set 0 (name.getD 0 "")
  let swapname := (List.range 8).foldl
    (fun s i => s.set (D i) (name.getD (D (data_map.getD i 0)) "")) swapname
  (List.range 20).foldl
    (fun s i => s.set (A i) (name.getD (A (address_map.getD i 0)) "")) swapname

/-! ## Validity of the maps -/

/-- The default `address_map` of line 97. -/
def default_address_map : List Nat :=
  [0,1,2,3,4,5,6,7,8,9,10,11,12,13,14,15,16,17,18,19]

/-- The default `data_map` of line 98. -/
def default_data_map : List Nat := [0,1,2,3,4,5,6,7]

/-- An `address_map` is valid for active width `W`: twenty entries, entries
`0..W` a permutation of `0..W`, entries above `W` the identity. -/
def valid_address_map (W : Nat) (address_map : List Nat) : Prop :=
  address_map.length = 20 ∧
  (address_map.take (W + 1)).Perm (List.range (W + 1)) ∧
  ∀ b < 20, W < b → address_map.getD b 0 = b

instance (W : Nat) (address_map : List Nat) : Decidable (valid_address_map W address_map) := by
  unfold valid_address_map; infer_instance

/-- A `data_map` is valid: a permutation of `0..7`. -/
def valid_data_map (data_map : List Nat) : Prop :=
  data_map.Perm (List.range 8)

instance (data_map : List Nat) : Decidable (valid_data_map data_map) := by
  unfold valid_data_map; infer_instance

/-- An image is a list of bytes. -/
def is_bytes (image : List Nat) : Prop := ∀ x ∈ image, x < 256

instance (image : List Nat) : Decidable (is_bytes image) := by
  unfold is_bytes; infer_instance

/-! ## The formulas of the specification -/

/-- The formula `OR over b < n of ((i >> a b) & 1) << b`: the bit at position
`a b` of `i` goes to position `b`. -/
def or_gather (a : Nat → Nat) : Nat → Nat → Nat
  | 0, _ => 0
  | n + 1, i => or_gather a n i ||| (i >>> a n &&& 1) <<< n

/-- The formula `OR over b < n of ((i >> b) & 1) << a b`: the bit at position
`b` of `i` goes to position `a b`. -/
def or_scatter (a : Nat → Nat) : Nat → Nat → Nat
  | 0, _ => 0
  | n + 1, i => or_scatter a n i ||| (i >>> n &&& 1) <<< a n

/-- The formula `sum over b < n of bit_b(i) << a b`. -/
def sum_scatter (a : Nat → Nat) : Nat → Nat → Nat
  | 0, _ => 0
  | n + 1, i => sum_scatter a n i + (i >>> n &&& 1) <<< a n

/-- The formula `sum over b < n of bit_{a b}(i) << b`. -/
def sum_gather (a : Nat → Nat) : Nat → Nat → Nat
  | 0, _ => 0
  | n + 1, i => sum_gather a n i + (i >>> a n &&& 1) <<< n

/-- The function `a` permutes `0 .. n-1`. -/
def PermOn (n : Nat) (a : Nat → Nat) : Prop :=
  (∀ b, b < n → a b < n) ∧ (∀ b c, b < n → c < n → a b = a c → b = c) ∧
    (∀ k, k < n → ∃ b, b < n ∧ a b = k)

/-! ## The pinout table and the diagram -/

/-- The 32-entry `jedec` table of lines 11-14: the signal at each pin position. -/
def jedec : List Nat :=
  [ A 19, A 16, A 15, A 12, A 7, A 6,  A 5,  A 4,  A 3,  A 2, A 1, A 0,  D 0,  D 1,  D 2,  NONE,
    D 3,  D 4,  D 5,  D 6,  D 7, NONE, A 10, NONE, A 11, A 9, A 8, A 13, A 14, A 17, A 18, NONE ]

/-- The initial value of `i` in the loop of `diagram` (line 29):
`(limit < (A 16)) ? (limit < (A 12)) ? 4 : 2 : 0`. -/
def diagram_start (limit : Nat) : Nat :=
  if limit < A 16 then (if limit < A 12 then 4 else 2) else 0

/-- The values `i` takes in `for( i = start; i < 16; i++ )`. -/
def diagram_indices (limit : Nat) : List Nat :=
  List.range' (diagram_start limit) (16 - diagram_start limit)

/-- The table index used for pin position `p`:
`(jedec[p] > limit) ? NONE : jedec[p]`. -/
def pin_signal (limit p : Nat) : Nat :=
  if jedec.getD p 0 > limit then NONE else jedec.getD p 0

/-- The four string arguments of the `fprintf` of one row (lines 32-35), in
the order they are passed. -/
structure Row where
  left_destination : String
  left_source : String
  right_source : String
  right_destination : String
  deriving DecidableEq, Repr

/-- The arguments of the `fprintf` of row `i`. -/
def diagram_row (source destination : List String) (limit i : Nat) : Row :=
  { left_destination := destination.getD (pin_signal limit i) ""
    left_source := source.getD (pin_signal limit i) ""
    right_source := source.getD (pin_signal limit (31 - i)) ""
    right_destination := destination.getD (pin_signal limit (31 - i)) "" }

/-- The rows `diagram` prints, top to bottom. -/
def diagram_rows (source destination : List String) (limit : Nat) : List Row :=
  (diagram_indices limit).map (diagram_row source destination limit)

/-- The conversion `%3s` (and `%-3s` when `left` is set) of `printf`: the text
padded with blanks to `width` characters. -/
def pad (left : Bool) (width : Nat) (s : String) : String :=
  if left then s ++ String.mk (List.replicate (width - s.length) ' ')
  else String.mk (List.replicate (width - s.length) ' ') ++ s

/-- The text of one row: format `"%3s--|%-3s %3s|--%s\n"`. -/
def format_row (r : Row) : String :=
  pad false 3 r.left_destination ++ "--|" ++ pad true 3 r.left_source ++ " " ++
    pad false 3 r.right_source ++ "|--" ++ r.right_destination ++ "\n"

/-- The text `diagram` writes to its stream (lines 27-37). -/
def diagram (source destination : List String) (limit : Nat) : String :=
  "      ___ ___\n" ++ "     |   U   |\n" ++
    String.join ((diagram_rows source destination limit).map format_row) ++
    "     |_______|\n"

/-- The number of lines of a text: its count of newline characters. -/
def line_count (text : String) : Nat := text.data.count '\n'

/-- No entry of a name table contains a newline. -/
def no_newline (table : List String) : Prop := ∀ s ∈ table, '\n' ∉ s.data

instance (table : List String) : Decidable (no_newline table) := by
  unfold no_newline; infer_instance

/-- The row count as the specification words it: 16 rows from `A16` on, 8 rows
from `A12` on, 4 rows below. -/
def stated_row_count (limit : Nat) : Nat :=
  if A 16 ≤ limit then 16 else if A 12 ≤ limit then 8 else 4

/-- The pin positions of the rows `diagram` prints, in printing order: for
each row `i`, the left pin `i` and the right pin `31 - i`. -/
def displayed_pins (limit : Nat) : List Nat :=
  (diagram_indices limit).flatMap fun i => [i, 31 - i]

/-- The source-side names of a list of rows, left then right. -/
def source_names (rows : List Row) : List String :=
  rows.flatMap fun r => [r.left_source, r.right_source]

/-- The destination-side names of a list of rows, left then right. -/
def destination_names (rows : List Row) : List String :=
  rows.flatMap fun r => [r.left_destination, r.right_destination]

/-- The rows of the diagram `main` prints when no output file is given (lines
186-193): `swapname` is the source side with `-r`, the destination side
without. -/
def main_diagram_rows (reverse : Bool) (address_map data_map : List Nat)
    (highest_address_bit : Nat) : List Row :=
  if reverse then
    diagram_rows (swapname address_map data_map) name (A highest_address_bit)
  else
    diagram_rows name (swapname address_map data_map) (A highest_address_bit)

/-- The index into `name` that `swapname` holds at signal `t` (lines 177-185):
`NONE` for `NONE`, `D data_map[b]` for `D b`, `A address_map[b]` for `A b`. -/
def swap_index (address_map data_map : List Nat) (t : Nat) : Nat :=
  if t = 0 then 0
  else if t ≤ 8 then D (data_map.getD (t - 1) 0)
  else A (address_map.getD (t - 9) 0)

/-! ## The `-a` loop with its trace -/

/-- The loop of lines 108-119 once more, keeping what `address_scan` drops: the
indices `j` whose body gets past the `!string` test (the targets of the
`sscanf` store), in order, and `address_map` as the loop leaves it, whether it
ends by its condition or by the `return` at `!string`. -/
def address_scan_trace : Nat → List (Option Nat) → List Nat → List Nat × List Nat
  | 0, _, address_map => ([], address_map)
  | _ + 1, [], address_map => ([], address_map)
  | j + 1, field :: rest, address_map =>
    let r := address_scan_trace j rest (sscanf_store field address_map j)
    (j :: r.1, r.2)

/-! ## The option loop and the run

A run is modelled from the point where the input file has been opened and its
length found, for a command line with at least the input file name.  The
environment is taken to cooperate where the claims do not concern it: `malloc`,
`fread` and `fwrite` succeed.  Whether `fopen( file, "wb" )` succeeds is the
parameter `writable`. -/

/-- One argument `argv[i]`, `1 ≤ i < argc - 1`: its text and, for the case it
is read as an `-a` or `-d` option, the fields of the text after the flag. -/
structure Arg where
  text : String
  fields : List (Option Nat)
  deriving DecidableEq, Repr

/-- The variables the option loop sets (lines 97-100); `outfile` is the name
of the file behind the `FILE *`. -/
structure Options where
  address_map : List Nat
  data_map : List Nat
  reverse : Bool
  outfile : Option String
  deriving DecidableEq, Repr

/-- The values of lines 97-100. -/
def initial_options : Options :=
  { address_map := default_address_map
    data_map := default_data_map
    reverse := false
    outfile := none }

/-- The loop of lines 102-172 over `argv[1 .. argc-2]`.  The result is the
options, or `none` after an `EXIT_FAILURE`, together with the names of the
files opened by `fopen( ..., "wb" )` (created or truncated) up to that point,
`opened` being those opened before. -/
def option_loop (w highest_address_bit : Nat) (writable : String → Bool) :
    List Arg → Options → List String → Option Options × List String
  | [], options, opened => (some options, opened)
  | arg :: rest, options, opened =>
    if arg.text.data.take 2 = ['-', 'a'] then
      match parse_address w highest_address_bit arg.fields options.address_map with
      | none => (none, opened)
      | some address_map =>
        option_loop w highest_address_bit writable rest
          { options with address_map := address_map } opened
    else if arg.text.data.take 2 = ['-', 'd'] then
      match parse_data arg.fields options.data_map with
      | none => (none, opened)
      | some data_map =>
        option_loop w highest_address_bit writable rest
          { options with data_map := data_map } opened
    else if arg.text = "-r" then
      option_loop w highest_address_bit writable rest { options with reverse := true } opened
    else
      match rest with
      | file :: rest' =>
        if arg.text = "-o" then
          if options.outfile.isSome then (none, opened)
          else if writable file.text then
            option_loop w highest_address_bit writable rest'
              { options with outfile := some file.text } (opened ++ [file.text])
          else (none, opened)
        else (none, opened)
      | [] => (none, opened)

/-- What a run leaves behind: its exit status, the files it opened for
writing, the bytes it passed to `fwrite` (with the file) and the diagram it
printed. -/
structure Run where
  success : Bool
  opened : List String
  written : Option (String × List Nat)
  printed : Option String
  deriving DecidableEq, Repr

/-- Lines 73-294 of `main` for the arguments `args` before the input file
name, the content `input` of the input file and the initial content `buffer`
of the output buffer.  A copy loop that would write outside its buffer has no
defined result and is reported as a failed run. -/
def main_run (w : Nat) (writable : String → Bool) (args : List Arg)
    (input buffer : List Nat) : Run :=
  match size_check input.length with
  | .error _ => { success := false, opened := [], written := none, printed := none }
  | .ok highest_address_bit =>
    match option_loop w highest_address_bit writable args initial_options [] with
    | (none, opened) =>
      { success := false, opened := opened, written := none, printed := none }
    | (some options, opened) =>
      match options.outfile with
      | none =>
        { success := true, opened := opened, written := none,
          printed := some
            (if options.reverse then
              diagram (swapname options.address_map options.data_map) name
                (A highest_address_bit)
            else
              diagram name (swapname options.address_map options.data_map)
                (A highest_address_bit)) }
      | some file =>
        match transform options.reverse options.address_map options.data_map input buffer with
        | some output =>
          { success := true, opened := opened, written := some (file, output),
            printed := none }
        | none => { success := false, opened := opened, written := none, printed := none }

/-! ## Bit lemmas -/

theorem testBit_bit_shl (i p q k : Nat) :
    ((i >>> p &&& 1) <<< q).testBit k = (decide (k = q) && i.testBit p) := by
  rw [Nat.testBit_shiftLeft, Nat.testBit_and, Nat.testBit_shiftRight]
  by_cases hk : k = q
  · subst hk; simp
  · by_cases hge : k ≥ q
    · have h0 : k - q ≠ 0 := by omega
      have h1 : Nat.testBit 1 (k - q) = false := by
        cases hb : Nat.testBit 1 (k - q)
        · rfl
        · exact absurd (Nat.testBit_one_eq_true_iff_self_eq_zero.mp hb) h0
      simp [hk, h1]
    · simp [hk, hge]

theorem testBit_or_gather (a : Nat → Nat) (n i k : Nat) :
    (or_gather a n i).testBit k = (decide (k < n) && i.testBit (a k)) := by
  induction n with
  | zero => simp [or_gather]
  | succ n ih =>
    rw [or_gather, Nat.testBit_or, ih, testBit_bit_shl]
    by_cases h1 : k = n
    · subst h1; simp
    · by_cases h2 : k < n
      · have : k < n + 1 := by omega
        simp [h1, h2, this]
      · have : ¬ k < n + 1 := by omega
        simp [h1, h2, this]

theorem testBit_or_scatter (a : Nat → Nat) (n i k : Nat) :
    (or_scatter a n i).testBit k = true ↔ ∃ b, b < n ∧ a b = k ∧ i.testBit b = true := by
  induction n with
  | zero => simp [or_scatter]
  | succ n ih =>
    rw [or_scatter, Nat.testBit_or, Bool.or_eq_true, ih, testBit_bit_shl]
    constructor
    · rintro (⟨b, hb, hab, hi⟩ | h)
      · exact ⟨b, by omega, hab, hi⟩
      · simp only [Bool.and_eq_true, decide_eq_true_eq] at h
        exact ⟨n, by omega, h.1.symm, h.2⟩
    · rintro ⟨b, hb, hab, hi⟩
      by_cases hbn : b = n
      · subst hbn
        right
        simp [hab.symm, hi]
      · exact Or.inl ⟨b, by omega, hab, hi⟩

/-! ## The unrolled expressions are the formulas -/

theorem or_reorder_20 (t : Nat → Nat) :
    t 19 ||| t 18 ||| t 17 ||| t 16 ||| t 15 ||| t 14 ||| t 13 ||| t 12 ||| t 11 ||| t 10 ||| t 9 ||| t 8 ||| t 7 ||| t 6 ||| t 5 ||| t 4 ||| t 3 ||| t 2 ||| t 1 ||| t 0 =
    0 ||| t 0 ||| t 1 ||| t 2 ||| t 3 ||| t 4 ||| t 5 ||| t 6 ||| t 7 ||| t 8 ||| t 9 ||| t 10 ||| t 11 ||| t 12 ||| t 13 ||| t 14 ||| t 15 ||| t 16 ||| t 17 ||| t 18 ||| t 19 := by
  rw [Nat.zero_or]
  ac_rfl

theorem or_reorder_8 (t : Nat → Nat) :
    t 7 ||| t 6 ||| t 5 ||| t 4 ||| t 3 ||| t 2 ||| t 1 ||| t 0 =
    0 ||| t 0 ||| t 1 ||| t 2 ||| t 3 ||| t 4 ||| t 5 ||| t 6 ||| t 7 := by
  rw [Nat.zero_or]
  ac_rfl

theorem forward_index_eq (address_map : List Nat) (i : Nat) :
    forward_index address_map i = or_gather (fun b => address_map.getD b 0) 20 i :=
  or_reorder_20 (fun b => (i >>> address_map.getD b 0 &&& 1) <<< b)

theorem reverse_index_eq (address_map : List Nat) (i : Nat) :
    reverse_index address_map i = or_scatter (fun b => address_map.getD b 0) 20 i :=
  or_reorder_20 (fun b => (i >>> b &&& 1) <<< address_map.getD b 0)

theorem forward_byte_eq (data_map : List Nat) (i : Nat) :
    forward_byte data_map i = or_gather (fun b => data_map.getD b 0) 8 i :=
  or_reorder_8 (fun b => (i >>> data_map.getD b 0 &&& 1) <<< b)

theorem reverse_byte_eq (data_map : List Nat) (i : Nat) :
    reverse_byte data_map i = or_scatter (fun b => data_map.getD b 0) 8 i :=
  or_reorder_8 (fun b => (i >>> b &&& 1) <<< data_map.getD b 0)

/-! ## Permutations of bit positions -/

theorem permOn_of_perm (n : Nat) (l : List Nat) (h : l.Perm (List.range n)) :
    PermOn n (fun b => l.getD b 0) := by
  have hlen : l.length = n := by simpa using h.length_eq
  have hnd : l.Nodup := h.nodup_iff.mpr (List.nodup_range n)
  refine ⟨?_, ?_, ?_⟩
  · intro b hb
    have hb' : b < l.length := by omega
    have hmem : l.getD b 0 ∈ l := by
      rw [List.getD_eq_getElem l 0 hb']
      exact List.getElem_mem hb'
    simpa using (h.mem_iff.mp hmem)
  · intro b c hb hc hbc
    have hb' : b < l.length := by omega
    have hc' : c < l.length := by omega
    simp only [List.getD_eq_getElem l 0 hb', List.getD_eq_getElem l 0 hc'] at hbc
    exact (List.Nodup.getElem_inj_iff hnd).mp hbc
  · intro k hk
    have hmem : k ∈ l := h.mem_iff.mpr (by simpa using hk)
    obtain ⟨b, hb, hbk⟩ := List.getElem_of_mem hmem
    exact ⟨b, by omega, by simp only [List.getD_eq_getElem l 0 hb]; exact hbk⟩

theorem or_gather_lt (a : Nat → Nat) (n i : Nat) : or_gather a n i < 2 ^ n := by
  apply Nat.lt_pow_two_of_testBit
  intro k hk
  rw [testBit_or_gather]
  have : ¬ k < n := by omega
  simp [this]

theorem or_scatter_lt (a : Nat → Nat) (n i : Nat) (h : PermOn n a) :
    or_scatter a n i < 2 ^ n := by
  apply Nat.lt_pow_two_of_testBit
  intro k hk
  cases hb : (or_scatter a n i).testBit k
  · rfl
  · obtain ⟨b, hbn, hab, _⟩ := (testBit_or_scatter a n i k).mp hb
    have := h.1 b hbn
    omega

theorem testBit_lt_of_lt (n i k : Nat) (hi : i < 2 ^ n) (hk : i.testBit k = true) : k < n := by
  by_contra hkn
  have h1 : 2 ^ n ≤ 2 ^ k := Nat.pow_le_pow_right (by decide) (by omega)
  have h2 : i.testBit k = false := Nat.testBit_lt_two_pow (by omega)
  rw [h2] at hk
  exact Bool.noConfusion hk

theorem scatter_gather (a : Nat → Nat) (n i : Nat) (h : PermOn n a) (hi : i < 2 ^ n) :
    or_scatter a n (or_gather a n i) = i := by
  apply Nat.eq_of_testBit_eq
  intro k
  cases hk : i.testBit k
  · cases hs : (or_scatter a n (or_gather a n i)).testBit k
    · rfl
    · obtain ⟨b, hbn, hab, hg⟩ := (testBit_or_scatter a n _ k).mp hs
      rw [testBit_or_gather, hab, hk] at hg
      simp at hg
  · have hkn : k < n := testBit_lt_of_lt n i k hi hk
    obtain ⟨b, hbn, hab⟩ := h.2.2 k hkn
    apply (testBit_or_scatter a n _ k).mpr
    refine ⟨b, hbn, hab, ?_⟩
    rw [testBit_or_gather, hab, hk]
    simp [hbn]

theorem gather_scatter (a : Nat → Nat) (n i : Nat) (h : PermOn n a) (hi : i < 2 ^ n) :
    or_gather a n (or_scatter a n i) = i := by
  apply Nat.eq_of_testBit_eq
  intro k
  rw [testBit_or_gather]
  cases hk : i.testBit k
  · cases hs : (decide (k < n) && (or_scatter a n i).testBit (a k))
    · rfl
    · simp only [Bool.and_eq_true, decide_eq_true_eq] at hs
      obtain ⟨b, hbn, hab, hg⟩ := (testBit_or_scatter a n _ _).mp hs.2
      have : b = k := h.2.1 b k hbn hs.1 hab
      subst this
      rw [hk] at hg
      exact Bool.noConfusion hg
  · have hkn : k < n := testBit_lt_of_lt n i k hi hk
    have : (or_scatter a n i).testBit (a k) = true :=
      (testBit_or_scatter a n _ _).mpr ⟨k, hkn, rfl, hk⟩
    simp [hkn, this]

theorem PermOn.congr (n : Nat) (a c : Nat → Nat) (hac : ∀ b, b < n → a b = c b)
    (h : PermOn n a) : PermOn n c := by
  refine ⟨?_, ?_, ?_⟩
  · intro b hb
    rw [← hac b hb]; exact h.1 b hb
  · intro b d hb hd hbd
    rw [← hac b hb, ← hac d hd] at hbd
    exact h.2.1 b d hb hd hbd
  · intro k hk
    obtain ⟨b, hb, hbk⟩ := h.2.2 k hk
    exact ⟨b, hb, by rw [← hac b hb]; exact hbk⟩

theorem getD_take_of_lt (l : List Nat) (n b : Nat) (hb : b < n) :
    (l.take n).getD b 0 = l.getD b 0 := by
  simp [List.getD_eq_getElem?_getD, List.getElem?_take, hb]

theorem valid_address_permOn (W : Nat) (address_map : List Nat)
    (h : valid_address_map W address_map) :
    PermOn (W + 1) (fun b => address_map.getD b 0) :=
  PermOn.congr (W + 1) _ _ (fun b hb => getD_take_of_lt address_map (W + 1) b hb)
    (permOn_of_perm (W + 1) _ h.2.1)

theorem valid_data_permOn (data_map : List Nat) (h : valid_data_map data_map) :
    PermOn 8 (fun b => data_map.getD b 0) :=
  permOn_of_perm 8 data_map h

theorem forward_index_active (W : Nat) (address_map : List Nat) (i : Nat)
    (hW : W < 20) (h : valid_address_map W address_map) (hi : i < 2 ^ (W + 1)) :
    forward_index address_map i = or_gather (fun b => address_map.getD b 0) (W + 1) i := by
  rw [forward_index_eq]
  apply Nat.eq_of_testBit_eq
  intro k
  rw [testBit_or_gather, testBit_or_gather]
  by_cases hk : k < W + 1
  · have : k < 20 := by omega
    simp [hk, this]
  · by_cases hk20 : k < 20
    · have hid : address_map.getD k 0 = k := h.2.2 k hk20 (by omega)
      have hbit : i.testBit k = false := by
        cases hb : i.testBit k
        · rfl
        · exact absurd (testBit_lt_of_lt (W + 1) i k hi hb) hk
      simp only [hid, hbit]
      simp
    · simp [hk, hk20]

theorem reverse_index_active (W : Nat) (address_map : List Nat) (i : Nat)
    (hW : W < 20) (hi : i < 2 ^ (W + 1)) :
    reverse_index address_map i = or_scatter (fun b => address_map.getD b 0) (W + 1) i := by
  rw [reverse_index_eq]
  apply Nat.eq_of_testBit_eq
  intro k
  rw [Bool.eq_iff_iff, testBit_or_scatter, testBit_or_scatter]
  constructor
  · rintro ⟨b, _, hab, hb⟩
    exact ⟨b, testBit_lt_of_lt (W + 1) i b hi hb, hab, hb⟩
  · rintro ⟨b, hbW, hab, hb⟩
    exact ⟨b, by omega, hab, hb⟩

/-! ## The index maps and the copy loop -/

theorem forward_index_lt (W : Nat) (address_map : List Nat) (i : Nat)
    (hW : W < 20) (h : valid_address_map W address_map) (hi : i < 2 ^ (W + 1)) :
    forward_index address_map i < 2 ^ (W + 1) := by
  rw [forward_index_active W address_map i hW h hi]
  exact or_gather_lt _ _ _

theorem reverse_index_lt (W : Nat) (address_map : List Nat) (i : Nat)
    (hW : W < 20) (h : valid_address_map W address_map) (hi : i < 2 ^ (W + 1)) :
    reverse_index address_map i < 2 ^ (W + 1) := by
  rw [reverse_index_active W address_map i hW hi]
  exact or_scatter_lt _ _ _ (valid_address_permOn W address_map h)

theorem reverse_forward_index (W : Nat) (address_map : List Nat) (i : Nat)
    (hW : W < 20) (h : valid_address_map W address_map) (hi : i < 2 ^ (W + 1)) :
    reverse_index address_map (forward_index address_map i) = i := by
  rw [reverse_index_active W address_map _ hW (forward_index_lt W address_map i hW h hi),
    forward_index_active W address_map i hW h hi]
  exact scatter_gather _ _ _ (valid_address_permOn W address_map h) hi

theorem forward_reverse_index (W : Nat) (address_map : List Nat) (i : Nat)
    (hW : W < 20) (h : valid_address_map W address_map) (hi : i < 2 ^ (W + 1)) :
    forward_index address_map (reverse_index address_map i) = i := by
  rw [forward_index_active W address_map _ hW h (reverse_index_lt W address_map i hW h hi),
    reverse_index_active W address_map i hW hi]
  exact gather_scatter _ _ _ (valid_address_permOn W address_map h) hi

theorem bitswap_getD (reverse : Bool) (data_map : List Nat) (x : Nat) (hx : x < 256) :
    (bitswap reverse data_map).getD x 0 =
      (if reverse then reverse_byte data_map x else forward_byte data_map x) % 256 := by
  simp [bitswap, List.getD_eq_getElem?_getD, List.getElem?_map, List.getElem?_range hx]

theorem getD_set_eq (l : List Nat) (k v : Nat) (hk : k < l.length) :
    (l.set k v).getD k 0 = v := by
  simp [List.getD_eq_getElem?_getD, List.getElem?_set, hk]

theorem getD_set_ne (l : List Nat) (k o v : Nat) (hko : k ≠ o) :
    (l.set k v).getD o 0 = l.getD o 0 := by
  simp [List.getD_eq_getElem?_getD, List.getElem?_set, hko]

theorem copy_loop_spec (index : Nat → Nat) (table input : List Nat) (n : Nat)
    (output : List Nat)
    (hinj : ∀ i j, i < n → j < n → index i = index j → i = j)
    (hlt : ∀ i, i < n → index i < output.length) :
    ∃ out, copy_loop index table input n output = some out ∧
      out.length = output.length ∧
      (∀ i, i < n → out.getD (index i) 0 = table.getD (input.getD i 0) 0) ∧
      (∀ o, (∀ i, i < n → index i ≠ o) → out.getD o 0 = output.getD o 0) := by
  induction n with
  | zero =>
    exact ⟨output, rfl, rfl, fun i hi => absurd hi (Nat.not_lt_zero i), fun _ _ => rfl⟩
  | succ n ih =>
    obtain ⟨out, hrun, hlen, hwritten, hkept⟩ :=
      ih (fun i j hi hj => hinj i j (by omega) (by omega)) (fun i hi => hlt i (by omega))
    have hn : index n < out.length := by rw [hlen]; exact hlt n (by omega)
    refine ⟨out.set (index n) (table.getD (input.getD n 0) 0), ?_, ?_, ?_, ?_⟩
    · simp [copy_loop, hrun, hn]
    · simp [hlen]
    · intro i hi
      by_cases hin : i = n
      · subst hin
        exact getD_set_eq out _ _ hn
      · have hne : index n ≠ index i := fun he =>
          hin (hinj i n hi (by omega) he.symm)
        rw [getD_set_ne out _ _ _ hne]
        exact hwritten i (by omega)
    · intro o ho
      rw [getD_set_ne out _ _ _ (ho n (by omega))]
      exact hkept o (fun i hi => ho i (by omega))

theorem transform_spec (reverse : Bool) (W : Nat) (address_map data_map input output : List Nat)
    (hW : W < 20) (hA : valid_address_map W address_map)
    (hlen : input.length = 2 ^ (W + 1)) (hout : output.length = input.length) :
    ∃ out, transform reverse address_map data_map input output = some out ∧
      out.length = input.length ∧
      ∀ i, i < input.length →
        out.getD ((if reverse then reverse_index address_map else forward_index address_map) i) 0
          = (bitswap reverse data_map).getD (input.getD i 0) 0 := by
  cases reverse with
  | true =>
    obtain ⟨out, hrun, hl, hw, _⟩ := copy_loop_spec (reverse_index address_map)
      (bitswap true data_map) input input.length output
      (fun i j hi hj hij => by
        have h1 := forward_reverse_index W address_map i hW hA (by omega)
        have h2 := forward_reverse_index W address_map j hW hA (by omega)
        rw [← h1, ← h2, hij])
      (fun i hi => by
        rw [hout, hlen]; exact reverse_index_lt W address_map i hW hA (by omega))
    exact ⟨out, by simp [transform, hrun], by omega, fun i hi => by simpa using hw i hi⟩
  | false =>
    obtain ⟨out, hrun, hl, hw, _⟩ := copy_loop_spec (forward_index address_map)
      (bitswap false data_map) input input.length output
      (fun i j hi hj hij => by
        have h1 := reverse_forward_index W address_map i hW hA (by omega)
        have h2 := reverse_forward_index W address_map j hW hA (by omega)
        rw [← h1, ← h2, hij])
      (fun i hi => by
        rw [hout, hlen]; exact forward_index_lt W address_map i hW hA (by omega))
    exact ⟨out, by simp [transform, hrun], by omega, fun i hi => by simpa using hw i hi⟩

/-! ## Table lookups and images -/

theorem bitswap_forward_val (data_map : List Nat) (x : Nat) (hx : x < 256) :
    (bitswap false data_map).getD x 0 = or_gather (fun b => data_map.getD b 0) 8 x := by
  rw [bitswap_getD false data_map x hx]
  simp only [Bool.false_eq_true, if_false]
  rw [forward_byte_eq]
  exact Nat.mod_eq_of_lt (or_gather_lt _ 8 x)

theorem bitswap_reverse_val (data_map : List Nat) (x : Nat) (hD : valid_data_map data_map)
    (hx : x < 256) :
    (bitswap true data_map).getD x 0 = or_scatter (fun b => data_map.getD b 0) 8 x := by
  rw [bitswap_getD true data_map x hx]
  simp only [if_true]
  rw [reverse_byte_eq]
  exact Nat.mod_eq_of_lt (or_scatter_lt _ 8 x (valid_data_permOn data_map hD))

theorem getD_lt_of_is_bytes (image : List Nat) (h : is_bytes image) (i : Nat) :
    image.getD i 0 < 256 := by
  by_cases hi : i < image.length
  · rw [List.getD_eq_getElem image 0 hi]
    exact h _ (List.getElem_mem hi)
  · rw [List.getD_eq_default image 0 (by omega)]
    decide

theorem list_ext_getD (l₁ l₂ : List Nat) (hlen : l₁.length = l₂.length)
    (h : ∀ o, o < l₁.length → l₁.getD o 0 = l₂.getD o 0) : l₁ = l₂ := by
  apply List.ext_getElem hlen
  intro o h1 h2
  have := h o h1
  rwa [List.getD_eq_getElem l₁ 0 h1, List.getD_eq_getElem l₂ 0 h2] at this

theorem valid_default_address_map (W : Nat) (h19 : W ≤ 19) :
    valid_address_map W default_address_map := by
  interval_cases W <;> decide

theorem is_bytes_replicate_zero (n : Nat) : is_bytes (List.replicate n 0) := by
  intro x hx
  rw [List.eq_of_mem_replicate hx]
  decide

/-! ## The name table of an alternate pinout -/

theorem foldl_set_length (f : Nat → String) (base n : Nat) (s : List String) :
    ((List.range n).foldl (fun s i => s.set (base + i) (f i)) s).length = s.length := by
  induction n with
  | zero => rfl
  | succ n ih => rw [List.range_succ, List.foldl_append]; simpa using ih

theorem foldl_set_getD (f : Nat → String) (base n : Nat) (s : List String) (k : Nat) :
    ((List.range n).foldl (fun s i => s.set (base + i) (f i)) s).getD k "" =
      if base ≤ k ∧ k < base + n ∧ k < s.length then f (k - base) else s.getD k "" := by
  induction n with
  | zero =>
    have h : ¬ (base ≤ k ∧ k < base + 0 ∧ k < s.length) := by omega
    rw [if_neg h]; rfl
  | succ n ih =>
    rw [List.range_succ, List.foldl_append]
    simp only [List.foldl_cons, List.foldl_nil]
    by_cases hk : base + n = k
    · subst hk
      by_cases hl : base + n < s.length
      · have hl' : base + n <
            ((List.range n).foldl (fun s i => s.set (base + i) (f i)) s).length := by
          rw [foldl_set_length]; exact hl
        simp [List.getD_eq_getElem?_getD, List.getElem?_set, hl, hl']
      · have hl' : ¬ base + n <
            ((List.range n).foldl (fun s i => s.set (base + i) (f i)) s).length := by
          rw [foldl_set_length]; exact hl
        have h0 : s.length ≤ base + n := by omega
        simp [List.getD_eq_getElem?_getD, List.getElem?_set, hl, hl',
          List.getElem?_eq_none h0]
    · have : (((List.range n).foldl (fun s i => s.set (base + i) (f i)) s).set (base + n)
          (f n)).getD k "" =
          ((List.range n).foldl (fun s i => s.set (base + i) (f i)) s).getD k "" := by
        simp [List.getD_eq_getElem?_getD, List.getElem?_set, hk]
      rw [this, ih]
      by_cases h1 : base ≤ k ∧ k < base + n ∧ k < s.length
      · have h2 : base ≤ k ∧ k < base + (n + 1) ∧ k < s.length := ⟨h1.1, by omega, h1.2.2⟩
        rw [if_pos h1, if_pos h2]
      · have h2 : ¬ (base ≤ k ∧ k < base + (n + 1) ∧ k < s.length) := by
          intro h; apply h1; exact ⟨h.1, by omega, h.2.2⟩
        rw [if_neg h1, if_neg h2]

theorem swapname_address (address_map data_map : List Nat) (b : Nat) (hb : b < 20) :
    (swapname address_map data_map).getD (A b) "" =
      name.getD (A (address_map.getD b 0)) "" := by
  unfold swapname A
  simp only []
  rw [foldl_set_getD (fun i => name.getD (9 + address_map.getD i 0) "") 9 20]
  have hlen : 9 + b < ((List.range 8).foldl
      (fun s i => s.set (D i) (name.getD (D (data_map.getD i 0)) ""))
      ((List.replicate 29 "").set 0 (name.getD 0 ""))).length := by
    unfold D
    rw [foldl_set_length (fun i => name.getD (1 + data_map.getD i 0) "") 1 8]
    simp; omega
  rw [if_pos ⟨by omega, by omega, hlen⟩]
  simp

theorem swapname_data (address_map data_map : List Nat) (b : Nat) (hb : b < 8) :
    (swapname address_map data_map).getD (D b) "" =
      name.getD (D (data_map.getD b 0)) "" := by
  unfold swapname A D
  simp only []
  rw [foldl_set_getD (fun i => name.getD (9 + address_map.getD i 0) "") 9 20]
  rw [if_neg (by omega)]
  rw [foldl_set_getD (fun i => name.getD (1 + data_map.getD i 0) "") 1 8]
  rw [if_pos ⟨by omega, by omega, by simp; omega⟩]
  simp

/-! ## The size check -/

theorem find_highest_address_bit_foldl (length : Int) (l : List Nat) (acc : Nat)
    (hl : ∀ i ∈ l, 9 ≤ i ∧ i ≤ 19)
    (hacc : acc = 0 ∨ (9 ≤ acc ∧ acc ≤ 19 ∧ length = ((1 <<< (acc + 1) : Nat) : Int))) :
    let r := l.foldl (fun highest_address_bit i =>
      if length = ((1 <<< (i + 1) : Nat) : Int) then i else highest_address_bit) acc
    r = 0 ∨ (9 ≤ r ∧ r ≤ 19 ∧ length = ((1 <<< (r + 1) : Nat) : Int)) := by
  induction l generalizing acc with
  | nil => exact hacc
  | cons i l ih =>
    simp only [List.foldl_cons]
    apply ih _ (fun x hx => hl x (List.mem_cons_of_mem i hx))
    by_cases h : length = ((1 <<< (i + 1) : Nat) : Int)
    · rw [if_pos h]
      exact Or.inr ⟨(hl i (List.mem_cons_self i l)).1, (hl i (List.mem_cons_self i l)).2, h⟩
    · rw [if_neg h]; exact hacc

theorem find_highest_address_bit_spec (length : Int) :
    find_highest_address_bit length = 0 ∨
      (9 ≤ find_highest_address_bit length ∧ find_highest_address_bit length ≤ 19 ∧
        length = ((1 <<< (find_highest_address_bit length + 1) : Nat) : Int)) :=
  find_highest_address_bit_foldl length (List.range' 9 11) 0
    (fun i hi => by
      rw [List.mem_range'_1] at hi
      omega)
    (Or.inl rfl)

theorem find_highest_address_bit_pow (k : Nat) (h9 : 9 ≤ k) (h19 : k ≤ 19) :
    find_highest_address_bit ((2 : Int) ^ (k + 1)) = k := by
  interval_cases k <;> rfl

/-! ## The `-a` and `-d` checks -/

theorem checked_values_length (n : Nat) (fields : List (Option Nat)) (map : List Nat) :
    (checked_values n fields map).length = n := by
  simp [checked_values]

theorem checked_values_cons (n : Nat) (field : Option Nat) (rest : List (Option Nat))
    (map : List Nat) (hn : n < map.length) :
    checked_values (n + 1) (field :: rest) map =
      ((sscanf_store field map n).getD n 0) :: checked_values n rest (sscanf_store field map n) := by
  unfold checked_values sscanf_store
  rw [List.range_succ_eq_map, List.map_cons, List.map_map]
  congr 1
  · cases field with
    | none => simp
    | some v => simp [List.getD_eq_getElem?_getD, List.getElem?_set, hn]
  · apply List.map_congr_left
    intro k hk
    rw [List.mem_range] at hk
    have hne : n ≠ n - 1 - k := by omega
    cases field with
    | none =>
      simp only [Function.comp, List.getD_cons_succ]
      congr 2
      omega
    | some v =>
      simp only [Function.comp, List.getD_cons_succ]
      rw [getD_set_ne map n (n - 1 - k) v hne]
      congr 2
      omega

/-- Whether a mask equals `2 ^ N - 1`, given which bits the values set. -/
theorem mask_full_iff_perm (N G : Nat) (c : Nat → Nat) (vals : List Nat) (bits : Nat)
    (hNG : N ≤ G) (hlen : vals.length = N)
    (hself : ∀ v, v < G → (c v).testBit v = true)
    (hlow : ∀ v k, v < G → k < N → (c v).testBit k = true → k = v)
    (hone : ∀ v k, v < N → (c v).testBit k = true → k = v)
    (hbits : ∀ k, bits.testBit k = true ↔ ∃ v, v ∈ vals ∧ v < G ∧ (c v).testBit k = true) :
    bits = 2 ^ N - 1 ↔ vals.Perm (List.range N) := by
  constructor
  · intro hfull
    have hsub : List.range N ⊆ vals := by
      intro k hk
      rw [List.mem_range] at hk
      have hk1 : bits.testBit k = true := by
        rw [hfull, Nat.testBit_two_pow_sub_one]; simpa using hk
      obtain ⟨v, hv, hvG, hvk⟩ := (hbits k).mp hk1
      have := hlow v k hvG hk hvk
      rwa [this]
    exact ((List.subperm_of_subset (List.nodup_range N) hsub).perm_of_length_le
      (by simp [hlen])).symm
  · intro hperm
    apply Nat.eq_of_testBit_eq
    intro k
    rw [Nat.testBit_two_pow_sub_one, Bool.eq_iff_iff, hbits]
    simp only [decide_eq_true_eq]
    constructor
    · rintro ⟨v, hv, _, hvk⟩
      have hvN : v < N := by simpa using hperm.mem_iff.mp hv
      rw [hone v k hvN hvk]; exact hvN
    · intro hk
      exact ⟨k, hperm.mem_iff.mpr (by simpa using hk), by omega, hself k (by omega)⟩

theorem to_unsigned_one_shl_lt (w v : Nat) (hw : 32 ≤ w) (hv : v < 31) :
    to_unsigned w (int_one_shl v) = 2 ^ v := by
  unfold to_unsigned int_one_shl
  rw [if_neg (by omega), Nat.shiftLeft_eq, Nat.one_mul]
  have h1 : (2 : Nat) ^ v < 2 ^ w := Nat.pow_lt_pow_right (by decide) (by omega)
  have h2 : (((2 ^ v : Nat) : Int)) % (2 : Int) ^ w = ((2 ^ v : Nat) : Int) := by
    apply Int.emod_eq_of_lt
    · positivity
    · exact_mod_cast h1
  rw [h2, Int.toNat_ofNat]

theorem to_unsigned_one_shl_31 (w : Nat) (hw : 32 ≤ w) :
    to_unsigned w (int_one_shl 31) = 2 ^ 31 * (2 ^ (w - 31) - 1) := by
  unfold to_unsigned int_one_shl
  rw [if_pos rfl]
  have hle : (2 : Nat) ^ 31 ≤ 2 ^ w := Nat.pow_le_pow_right (by decide) (by omega)
  have hsplit : (2 : Nat) ^ w = 2 ^ 31 * 2 ^ (w - 31) := by
    rw [← Nat.pow_add]; congr 1; omega
  have h1 : (-((2 : Int) ^ 31)) % (2 : Int) ^ w = (((2 ^ w - 2 ^ 31 : Nat)) : Int) := by
    have e : (-((2 : Int) ^ 31)) = (((2 ^ w - 2 ^ 31 : Nat)) : Int) + (2 : Int) ^ w * (-1) := by
      rw [Nat.cast_sub hle]; push_cast; ring
    rw [e, Int.add_mul_emod_self_left]
    apply Int.emod_eq_of_lt
    · exact Int.ofNat_nonneg _
    · have : 2 ^ w - 2 ^ 31 < 2 ^ w := Nat.sub_lt (Nat.two_pow_pos w) (Nat.two_pow_pos 31)
      exact_mod_cast this
  rw [h1, Int.toNat_ofNat, hsplit, Nat.mul_sub, Nat.mul_one]

theorem contribution_self (w v : Nat) (hw : 32 ≤ w) (hv : v < 32) :
    (to_unsigned w (int_one_shl v)).testBit v = true := by
  by_cases h31 : v = 31
  · subst h31
    rw [to_unsigned_one_shl_31 w hw, Nat.testBit_mul_pow_two]
    simp only [ge_iff_le, le_refl, decide_True, Nat.sub_self, Bool.true_and]
    rw [Nat.testBit_two_pow_sub_one]
    simp; omega
  · rw [to_unsigned_one_shl_lt w v hw (by omega), Nat.testBit_two_pow]
    simp

theorem contribution_low (w v k : Nat) (hw : 32 ≤ w) (hv : v < 32) (hk : k < 31)
    (h : (to_unsigned w (int_one_shl v)).testBit k = true) : k = v := by
  by_cases h31 : v = 31
  · subst h31
    rw [to_unsigned_one_shl_31 w hw, Nat.testBit_mul_pow_two] at h
    simp only [Bool.and_eq_true, decide_eq_true_eq] at h
    omega
  · rw [to_unsigned_one_shl_lt w v hw (by omega), Nat.testBit_two_pow] at h
    exact (of_decide_eq_true h).symm

theorem contribution_one (w v k : Nat) (hw : 32 ≤ w) (hv : v < 31)
    (h : (to_unsigned w (int_one_shl v)).testBit k = true) : k = v := by
  rw [to_unsigned_one_shl_lt w v hw hv, Nat.testBit_two_pow] at h
  exact (of_decide_eq_true h).symm

theorem address_scan_cons (w j : Nat) (field : Option Nat) (rest : List (Option Nat))
    (map : List Nat) (bits : Nat) :
    address_scan w (j + 1) (field :: rest) map bits =
      address_scan w j rest
        (sscanf_store field map j)
        (if (sscanf_store field map j).getD j 0 < 32 then
          bits ||| to_unsigned w (int_one_shl ((sscanf_store field map j).getD j 0))
        else bits) := rfl

theorem data_scan_cons (j : Nat) (field : Option Nat) (rest : List (Option Nat))
    (map : List Nat) (bits : Nat) :
    data_scan (j + 1) (field :: rest) map bits =
      data_scan j rest
        (sscanf_store field map j)
        (if (sscanf_store field map j).getD j 0 < 8 then
          (bits ||| 1 <<< (sscanf_store field map j).getD j 0) % 256
        else bits) := rfl

theorem address_scan_none (w n : Nat) (fields : List (Option Nat)) (map : List Nat)
    (bits : Nat) (h : fields.length < n) : address_scan w n fields map bits = none := by
  induction n generalizing fields map bits with
  | zero => omega
  | succ n ih =>
    cases fields with
    | nil => rfl
    | cons field rest =>
      rw [address_scan_cons]
      exact ih _ _ _ (by simpa using h)

theorem address_scan_some (w n : Nat) (fields : List (Option Nat)) (map : List Nat)
    (bits : Nat) (hn : n ≤ map.length) (h : n ≤ fields.length) :
    ∃ map' bits', address_scan w n fields map bits = some (map', bits') ∧
      ∀ k, bits'.testBit k = true ↔ (bits.testBit k = true ∨
        ∃ v, v ∈ checked_values n fields map ∧ v < 32 ∧
          (to_unsigned w (int_one_shl v)).testBit k = true) := by
  induction n generalizing fields map bits with
  | zero =>
    exact ⟨map, bits, rfl, fun k => by simp [checked_values]⟩
  | succ n ih =>
    cases fields with
    | nil => simp at h
    | cons field rest =>
      rw [address_scan_cons, checked_values_cons n field rest map (by omega)]
      generalize hm : sscanf_store field map n = map₁
      have hlen : map₁.length = map.length := by
        rw [← hm]; cases field <;> simp [sscanf_store]
      obtain ⟨map', bits', hrun, hbits⟩ := ih rest map₁
        (if map₁.getD n 0 < 32 then
          bits ||| to_unsigned w (int_one_shl (map₁.getD n 0)) else bits)
        (by omega) (by simpa using h)
      refine ⟨map', bits', hrun, fun k => ?_⟩
      rw [hbits k]
      by_cases hg : map₁.getD n 0 < 32
      · rw [if_pos hg, Nat.testBit_or, Bool.or_eq_true]
        constructor
        · rintro ((hb | hc) | ⟨v, hv, hv32, hvk⟩)
          · exact Or.inl hb
          · exact Or.inr ⟨_, List.mem_cons_self _ _, hg, hc⟩
          · exact Or.inr ⟨v, List.mem_cons_of_mem _ hv, hv32, hvk⟩
        · rintro (hb | ⟨v, hv, hv32, hvk⟩)
          · exact Or.inl (Or.inl hb)
          · rcases List.mem_cons.mp hv with rfl | hv'
            · exact Or.inl (Or.inr hvk)
            · exact Or.inr ⟨v, hv', hv32, hvk⟩
      · rw [if_neg hg]
        constructor
        · rintro (hb | ⟨v, hv, hv32, hvk⟩)
          · exact Or.inl hb
          · exact Or.inr ⟨v, List.mem_cons_of_mem _ hv, hv32, hvk⟩
        · rintro (hb | ⟨v, hv, hv32, hvk⟩)
          · exact Or.inl hb
          · rcases List.mem_cons.mp hv with rfl | hv'
            · exact absurd hv32 hg
            · exact Or.inr ⟨v, hv', hv32, hvk⟩

theorem data_scan_none (n : Nat) (fields : List (Option Nat)) (map : List Nat)
    (bits : Nat) (h : fields.length < n) : data_scan n fields map bits = none := by
  induction n generalizing fields map bits with
  | zero => omega
  | succ n ih =>
    cases fields with
    | nil => rfl
    | cons field rest =>
      rw [data_scan_cons]
      exact ih _ _ _ (by simpa using h)

theorem data_scan_some (n : Nat) (fields : List (Option Nat)) (map : List Nat)
    (bits : Nat) (hn : n ≤ map.length) (h : n ≤ fields.length) (hb : bits < 256) :
    ∃ map' bits', data_scan n fields map bits = some (map', bits') ∧
      ∀ k, bits'.testBit k = true ↔ (bits.testBit k = true ∨
        ∃ v, v ∈ checked_values n fields map ∧ v < 8 ∧ (2 ^ v).testBit k = true) := by
  induction n generalizing fields map bits with
  | zero =>
    exact ⟨map, bits, rfl, fun k => by simp [checked_values]⟩
  | succ n ih =>
    cases fields with
    | nil => simp at h
    | cons field rest =>
      rw [data_scan_cons, checked_values_cons n field rest map (by omega)]
      generalize hm : sscanf_store field map n = map₁
      have hlen : map₁.length = map.length := by
        rw [← hm]; cases field <;> simp [sscanf_store]
      by_cases hg : map₁.getD n 0 < 8
      · have hlt : bits ||| 1 <<< map₁.getD n 0 < 256 := by
          have h2 : 1 <<< map₁.getD n 0 < 2 ^ 8 := by
            rw [Nat.shiftLeft_eq, Nat.one_mul]
            exact Nat.pow_lt_pow_right (by decide) hg
          exact Nat.or_lt_two_pow (n := 8) hb h2
        obtain ⟨map', bits', hrun, hbits⟩ := ih rest map₁
          (if map₁.getD n 0 < 8 then (bits ||| 1 <<< map₁.getD n 0) % 256 else bits)
          (by omega) (by simpa using h)
          (by rw [if_pos hg]; exact Nat.mod_lt _ (by decide))
        refine ⟨map', bits', hrun, fun k => ?_⟩
        rw [hbits k, if_pos hg, Nat.mod_eq_of_lt hlt, Nat.testBit_or, Bool.or_eq_true,
          Nat.shiftLeft_eq, Nat.one_mul]
        constructor
        · rintro ((hb | hc) | ⟨v, hv, hv8, hvk⟩)
          · exact Or.inl hb
          · exact Or.inr ⟨_, List.mem_cons_self _ _, hg, hc⟩
          · exact Or.inr ⟨v, List.mem_cons_of_mem _ hv, hv8, hvk⟩
        · rintro (hb | ⟨v, hv, hv8, hvk⟩)
          · exact Or.inl (Or.inl hb)
          · rcases List.mem_cons.mp hv with rfl | hv'
            · exact Or.inl (Or.inr hvk)
            · exact Or.inr ⟨v, hv', hv8, hvk⟩
      · obtain ⟨map', bits', hrun, hbits⟩ := ih rest map₁
          (if map₁.getD n 0 < 8 then (bits ||| 1 <<< map₁.getD n 0) % 256 else bits)
          (by omega) (by simpa using h) (by rw [if_neg hg]; exact hb)
        refine ⟨map', bits', hrun, fun k => ?_⟩
        rw [hbits k, if_neg hg]
        constructor
        · rintro (hb | ⟨v, hv, hv8, hvk⟩)
          · exact Or.inl hb
          · exact Or.inr ⟨v, List.mem_cons_of_mem _ hv, hv8, hvk⟩
        · rintro (hb | ⟨v, hv, hv8, hvk⟩)
          · exact Or.inl hb
          · rcases List.mem_cons.mp hv with rfl | hv'
            · exact absurd hv8 hg
            · exact Or.inr ⟨v, hv', hv8, hvk⟩

theorem parse_address_isSome_iff (w highest_address_bit : Nat) (fields : List (Option Nat))
    (address_map : List Nat) (hw : 32 ≤ w) (h19 : highest_address_bit ≤ 19)
    (hlen : address_map.length = 20) :
    (parse_address w highest_address_bit fields address_map).isSome = true ↔
      (highest_address_bit + 1 ≤ fields.length ∧
        (checked_values (highest_address_bit + 1) fields address_map).Perm
          (List.range (highest_address_bit + 1))) := by
  unfold parse_address
  by_cases hf : highest_address_bit + 1 ≤ fields.length
  · obtain ⟨map', bits', hrun, hbits⟩ :=
      address_scan_some w (highest_address_bit + 1) fields address_map 0 (by omega) hf
    rw [hrun]
    simp only []
    have hiff := mask_full_iff_perm (highest_address_bit + 1) 32
      (fun v => to_unsigned w (int_one_shl v))
      (checked_values (highest_address_bit + 1) fields address_map) bits' (by omega)
      (checked_values_length _ _ _)
      (fun v hv => contribution_self w v hw hv)
      (fun v k hv hk h => contribution_low w v k hw hv (by omega) h)
      (fun v k hv h => contribution_one w v k hw (by omega) h)
      (fun k => by rw [hbits k]; simp)
    rw [Nat.shiftLeft_eq, Nat.one_mul]
    by_cases hb : bits' = 2 ^ (highest_address_bit + 1) - 1
    · simp [hb, hf, hiff.mp hb]
    · have : ¬ (checked_values (highest_address_bit + 1) fields address_map).Perm
          (List.range (highest_address_bit + 1)) := fun hp => hb (hiff.mpr hp)
      simp [hb, this]
  · rw [address_scan_none w _ fields address_map 0 (by omega)]
    simp [hf]

theorem parse_data_isSome_iff (fields : List (Option Nat)) (data_map : List Nat)
    (hlen : data_map.length = 8) :
    (parse_data fields data_map).isSome = true ↔
      (8 ≤ fields.length ∧ (checked_values 8 fields data_map).Perm (List.range 8)) := by
  unfold parse_data
  by_cases hf : 8 ≤ fields.length
  · obtain ⟨map', bits', hrun, hbits⟩ :=
      data_scan_some 8 fields data_map 0 (by omega) hf (by decide)
    rw [hrun]
    simp only []
    have hiff := mask_full_iff_perm 8 8 (fun v => 2 ^ v)
      (checked_values 8 fields data_map) bits' (le_refl 8)
      (checked_values_length _ _ _)
      (fun v _ => by simp [Nat.testBit_two_pow])
      (fun v k _ _ h => by
        rw [Nat.testBit_two_pow] at h; exact (of_decide_eq_true h).symm)
      (fun v k _ h => by
        rw [Nat.testBit_two_pow] at h; exact (of_decide_eq_true h).symm)
      (fun k => by rw [hbits k]; simp)
    by_cases hb : bits' = 2 ^ 8 - 1
    · have hb' : bits' = 255 := hb
      simp [hb', hf, hiff.mp hb]
    · have : ¬ (checked_values 8 fields data_map).Perm (List.range 8) :=
        fun hp => hb (hiff.mpr hp)
      have hb' : ¬ bits' = 255 := hb
      simp [hb', this]
  · rw [data_scan_none 8 fields data_map 0 (by omega)]
    simp [hf]

theorem not_perm_range (l : List Nat) (n : Nat)
    (h : ¬ l.Nodup ∨ (∃ v, v ∈ l ∧ n ≤ v) ∨ (∃ k, k < n ∧ k ∉ l)) :
    ¬ l.Perm (List.range n) := by
  intro hp
  rcases h with h | ⟨v, hv, hnv⟩ | ⟨k, hk, hkl⟩
  · exact h (hp.nodup_iff.mpr (List.nodup_range n))
  · have := List.mem_range.mp (hp.mem_iff.mp hv)
    omega
  · exact hkl (hp.mem_iff.mpr (List.mem_range.mpr hk))

/-! ## The identity maps -/

theorem or_gather_id (a : Nat → Nat) (n i : Nat) (ha : ∀ b, b < n → a b = b)
    (hi : i < 2 ^ n) : or_gather a n i = i := by
  apply Nat.eq_of_testBit_eq
  intro k
  rw [testBit_or_gather]
  by_cases hk : k < n
  · simp [hk, ha k hk]
  · have : i.testBit k = false := by
      cases hb : i.testBit k
      · rfl
      · exact absurd (testBit_lt_of_lt n i k hi hb) hk
    simp [hk, this]

theorem permOn_id (a : Nat → Nat) (n : Nat) (ha : ∀ b, b < n → a b = b) : PermOn n a :=
  ⟨fun b hb => by rw [ha b hb]; exact hb,
    fun b c hb hc h => by rwa [ha b hb, ha c hc] at h,
    fun k hk => ⟨k, hk, ha k hk⟩⟩

theorem or_scatter_id (a : Nat → Nat) (n i : Nat) (ha : ∀ b, b < n → a b = b)
    (hi : i < 2 ^ n) : or_scatter a n i = i := by
  have h := scatter_gather a n i (permOn_id a n ha) hi
  rwa [or_gather_id a n i ha hi] at h

theorem default_address_map_getD (b : Nat) (hb : b < 20) :
    default_address_map.getD b 0 = b := by
  interval_cases b <;> rfl

theorem default_data_map_getD (b : Nat) (hb : b < 8) : default_data_map.getD b 0 = b := by
  interval_cases b <;> rfl

/-! ## One pass over the image -/

theorem index_bijective (reverse : Bool) (W : Nat) (address_map : List Nat) (o : Nat)
    (hW : W < 20) (hA : valid_address_map W address_map) (ho : o < 2 ^ (W + 1)) :
    ∃! i, i < 2 ^ (W + 1) ∧
      (if reverse then reverse_index address_map else forward_index address_map) i = o := by
  cases reverse with
  | false =>
    simp only [Bool.false_eq_true, if_false]
    refine ⟨reverse_index address_map o,
      ⟨reverse_index_lt W address_map o hW hA ho,
        forward_reverse_index W address_map o hW hA ho⟩, ?_⟩
    rintro i ⟨hi, hio⟩
    rw [← hio, reverse_forward_index W address_map i hW hA hi]
  | true =>
    simp only [if_true]
    refine ⟨forward_index address_map o,
      ⟨forward_index_lt W address_map o hW hA ho,
        reverse_forward_index W address_map o hW hA ho⟩, ?_⟩
    rintro i ⟨hi, hio⟩
    rw [← hio, forward_reverse_index W address_map i hW hA hi]

theorem getD_replicate_zero (n i : Nat) : (List.replicate n 0).getD i 0 = 0 := by
  by_cases h : i < n
  · simp [List.getD_eq_getElem?_getD, List.getElem?_replicate, h]
  · simp [List.getD_eq_getElem?_getD, List.getElem?_replicate, h]

theorem getD_single (n p v i : Nat) (hp : p < n) :
    ((List.replicate n 0).set p v).getD i 0 = if i = p then v else 0 := by
  by_cases h : i = p
  · subst h
    rw [if_pos rfl]
    exact getD_set_eq _ _ _ (by simpa using hp)
  · rw [if_neg h, getD_set_ne _ _ _ _ (fun e => h e.symm)]
    exact getD_replicate_zero n i

theorem is_bytes_single (n p v : Nat) (hv : v < 256) :
    is_bytes ((List.replicate n 0).set p v) := by
  intro x hx
  rcases List.mem_or_eq_of_mem_set hx with h | h
  · rw [List.eq_of_mem_replicate h]; decide
  · rw [h]; exact hv

/-- The `address_map` that swaps address bits 0 and 1. -/
theorem valid_swap_address_map :
    valid_address_map 9 [1,0,2,3,4,5,6,7,8,9,10,11,12,13,14,15,16,17,18,19] := by
  decide

theorem bitswap_default_getD (reverse : Bool) (x : Nat) (hx : x < 256) :
    (bitswap reverse default_data_map).getD x 0 = x := by
  cases reverse with
  | false =>
    rw [bitswap_forward_val _ _ hx]
    exact or_gather_id _ 8 _ (fun b hb => default_data_map_getD b hb) hx
  | true =>
    rw [bitswap_reverse_val _ _ (by decide) hx]
    exact or_scatter_id _ 8 _ (fun b hb => default_data_map_getD b hb) hx

theorem swap_example (reverse : Bool) (scratch : List Nat) (hs : scratch.length = 1024) :
    transform reverse [1,0,2,3,4,5,6,7,8,9,10,11,12,13,14,15,16,17,18,19]
      default_data_map ((List.replicate 1024 0).set 2 0x42) scratch
      = some ((List.replicate 1024 0).set 1 0x42) := by
  have hA := valid_swap_address_map
  have hbytes : is_bytes ((List.replicate 1024 0).set 2 0x42) :=
    is_bytes_single 1024 2 0x42 (by decide)
  have hl0 : ((List.replicate 1024 0).set 2 0x42).length = 2 ^ (9 + 1) := by
    rw [List.length_set, List.length_replicate]; rfl
  obtain ⟨out, hrun, hl, hw⟩ := transform_spec reverse 9 _ default_data_map
    ((List.replicate 1024 0).set 2 0x42) scratch (by decide) hA hl0
    (by rw [hs, List.length_set, List.length_replicate])
  rw [hrun]
  refine congrArg some ?_
  apply list_ext_getD out _ (by rw [hl, List.length_set, List.length_set])
  intro o ho
  have ho' : o < 2 ^ (9 + 1) := by rw [← hl0, ← hl]; exact ho
  obtain ⟨i, ⟨hi, hio⟩, huniq⟩ := index_bijective reverse 9 _ o (by decide) hA ho'
  have h1 := hw i (by rw [hl0]; exact hi)
  rw [hio, bitswap_default_getD reverse _ (getD_lt_of_is_bytes _ hbytes _)] at h1
  rw [h1, getD_single 1024 2 0x42 _ (by decide), getD_single 1024 1 0x42 _ (by decide)]
  have h21 : (if reverse then reverse_index [1,0,2,3,4,5,6,7,8,9,10,11,12,13,14,15,16,17,18,19]
      else forward_index [1,0,2,3,4,5,6,7,8,9,10,11,12,13,14,15,16,17,18,19]) 2 = 1 := by
    cases reverse <;> decide
  by_cases h2 : i = 2
  · have : o = 1 := by rw [← hio, h2, h21]
    rw [if_pos h2, if_pos this]
  · have : o ≠ 1 := by
      intro h
      apply h2
      rw [huniq i ⟨hi, hio⟩]
      exact (huniq 2 ⟨by decide, by rw [h]; exact h21⟩).symm
    rw [if_neg h2, if_neg this]

/-! ## Entries of the byte table -/

theorem bitswap_entry (reverse : Bool) (data_map : List Nat) (hD : valid_data_map data_map)
    (x : Nat) (hx : x < 256) :
    (if reverse then reverse_byte data_map x else forward_byte data_map x) % 256 =
      if reverse then or_scatter (fun b => data_map.getD b 0) 8 x
      else or_gather (fun b => data_map.getD b 0) 8 x := by
  rw [← bitswap_getD reverse data_map x hx]
  cases reverse with
  | false => exact bitswap_forward_val data_map x hx
  | true => exact bitswap_reverse_val data_map x hD hx

/-! ## Sums and ORs of single bits -/

theorem add_two_pow_eq_or (x p : Nat) (h : x.testBit p = false) :
    x + 2 ^ p = x ||| 2 ^ p := by
  have hbit : x / 2 ^ p % 2 = 0 := by
    rw [Nat.testBit_to_div_mod] at h
    have := of_decide_eq_false h
    omega
  have hmod : x % 2 ^ (p + 1) = x % 2 ^ p := by
    rw [Nat.mod_pow_succ, hbit]; simp
  have hl : x % 2 ^ p < 2 ^ p := Nat.mod_lt _ (Nat.two_pow_pos p)
  have hx : x = 2 ^ (p + 1) * (x / 2 ^ (p + 1)) + x % 2 ^ p := by
    rw [← hmod]; exact (Nat.div_add_mod x _).symm
  have hl2 : 2 ^ p + x % 2 ^ p < 2 ^ (p + 1) := by
    rw [Nat.pow_succ]; omega
  have hl3 : x % 2 ^ p < 2 ^ (p + 1) := by omega
  calc x + 2 ^ p
      = 2 ^ (p + 1) * (x / 2 ^ (p + 1)) + (2 ^ p + x % 2 ^ p) := by omega
    _ = 2 ^ (p + 1) * (x / 2 ^ (p + 1)) ||| (2 ^ p + x % 2 ^ p) :=
        Nat.mul_add_lt_is_or hl2 _
    _ = 2 ^ (p + 1) * (x / 2 ^ (p + 1)) ||| (2 ^ p ||| x % 2 ^ p) := by
        have h1 := Nat.mul_add_lt_is_or hl 1
        rw [Nat.mul_one] at h1
        rw [h1]
    _ = (2 ^ (p + 1) * (x / 2 ^ (p + 1)) ||| x % 2 ^ p) ||| 2 ^ p := by
        rw [Nat.lor_comm (2 ^ p), Nat.lor_assoc]
    _ = (2 ^ (p + 1) * (x / 2 ^ (p + 1)) + x % 2 ^ p) ||| 2 ^ p := by
        rw [Nat.mul_add_lt_is_or hl3]
    _ = x ||| 2 ^ p := by rw [← hx]

theorem bit_shl_cases (i n p : Nat) :
    (i >>> n &&& 1) <<< p = 0 ∨ (i >>> n &&& 1) <<< p = 2 ^ p := by
  rw [Nat.and_one_is_mod, Nat.shiftLeft_eq]
  rcases Nat.mod_two_eq_zero_or_one (i >>> n) with h | h
  · left; rw [h]; simp
  · right; rw [h]; simp

theorem sum_scatter_eq_or_scatter (a : Nat → Nat) (n i : Nat)
    (hinj : ∀ b c, b < n → c < n → a b = a c → b = c) :
    sum_scatter a n i = or_scatter a n i := by
  induction n with
  | zero => rfl
  | succ n ih =>
    rw [sum_scatter, or_scatter,
      ih (fun b c hb hc h => hinj b c (by omega) (by omega) h)]
    rcases bit_shl_cases i n (a n) with h | h
    · rw [h]; simp
    · rw [h]
      apply add_two_pow_eq_or
      cases hb : (or_scatter a n i).testBit (a n)
      · rfl
      · obtain ⟨b, hbn, hab, _⟩ := (testBit_or_scatter a n i (a n)).mp hb
        have := hinj b n (by omega) (by omega) hab
        omega

theorem sum_gather_eq_or_gather (a : Nat → Nat) (n i : Nat) :
    sum_gather a n i = or_gather a n i := by
  induction n with
  | zero => rfl
  | succ n ih =>
    rw [sum_gather, or_gather, ih]
    rcases bit_shl_cases i (a n) n with h | h
    · rw [h]; simp
    · rw [h]
      exact add_two_pow_eq_or _ _ (Nat.testBit_lt_two_pow (or_gather_lt a n i))

/-! ## The text of the diagram -/

theorem line_count_append (a b : String) :
    line_count (a ++ b) = line_count a + line_count b := by
  simp [line_count, String.data_append, List.count_append]

theorem line_count_pad (left : Bool) (width : Nat) (s : String) :
    line_count (pad left width s) = line_count s := by
  have h : List.count '\n' (List.replicate (width - s.length) ' ') = 0 := by
    rw [List.count_replicate]; simp
  cases left <;> simp [pad, line_count, String.data_append, List.count_append, h]

theorem line_count_getD (table : List String) (h : no_newline table) (k : Nat) :
    line_count (table.getD k "") = 0 := by
  unfold line_count
  rw [List.count_eq_zero]
  by_cases hk : k < table.length
  · rw [List.getD_eq_getElem table "" hk]
    exact h _ (List.getElem_mem hk)
  · rw [List.getD_eq_default table "" (by omega)]
    simp

theorem line_count_format_row (source destination : List String) (limit i : Nat)
    (hs : no_newline source) (hd : no_newline destination) :
    line_count (format_row (diagram_row source destination limit i)) = 1 := by
  unfold format_row diagram_row
  simp only [line_count_append, line_count_pad, line_count_getD source hs,
    line_count_getD destination hd]
  rfl

theorem line_count_join (l : List String) (h : ∀ s ∈ l, line_count s = 1) :
    line_count (String.join l) = l.length := by
  unfold line_count
  rw [String.data_join]
  induction l with
  | nil => rfl
  | cons a l ih =>
    have ha : List.count '\n' a.data = 1 := h a (List.mem_cons_self a l)
    rw [List.map_cons, List.flatten_cons, List.count_append, List.length_cons,
      ih (fun s hs => h s (List.mem_cons_of_mem a hs)), ha]
    omega

theorem line_count_diagram (source destination : List String) (limit : Nat)
    (hs : no_newline source) (hd : no_newline destination) :
    line_count (diagram source destination limit) =
      2 + (diagram_rows source destination limit).length + 1 := by
  unfold diagram
  rw [line_count_append, line_count_append, line_count_append, line_count_join]
  · rw [List.length_map]; rfl
  · intro s hsmem
    obtain ⟨r, hr, rfl⟩ := List.mem_map.mp hsmem
    unfold diagram_rows at hr
    obtain ⟨i, _, rfl⟩ := List.mem_map.mp hr
    exact line_count_format_row source destination limit i hs hd

theorem diagram_rows_length (source destination : List String) (limit : Nat) :
    (diagram_rows source destination limit).length =
      if A 16 ≤ limit then 16 else if A 12 ≤ limit then 14 else 12 := by
  unfold diagram_rows diagram_indices diagram_start
  rw [List.length_map, List.length_range']
  by_cases h16 : A 16 ≤ limit
  · rw [if_pos h16, if_neg (by omega)]
  · by_cases h12 : A 12 ≤ limit
    · rw [if_neg h16, if_pos h12, if_pos (by omega), if_neg (by omega)]
    · rw [if_neg h16, if_neg h12, if_pos (by omega), if_pos (by omega)]

theorem no_newline_name : no_newline name := by decide

theorem foldl_set_forall (P : String → Prop) (f : Nat → String) (base n : Nat)
    (s : List String) (hs : ∀ x ∈ s, P x) (hf : ∀ i, P (f i)) :
    ∀ x ∈ (List.range n).foldl (fun s i => s.set (base + i) (f i)) s, P x := by
  induction n with
  | zero => exact hs
  | succ n ih =>
    rw [List.range_succ, List.foldl_append]
    simp only [List.foldl_cons, List.foldl_nil]
    intro x hx
    rcases List.mem_or_eq_of_mem_set hx with h | h
    · exact ih x h
    · rw [h]; exact hf n

theorem no_newline_name_getD (k : Nat) : '\n' ∉ (name.getD k "").data := by
  have h := line_count_getD name no_newline_name k
  unfold line_count at h
  exact List.count_eq_zero.mp h

theorem no_newline_swapname (address_map data_map : List Nat) :
    no_newline (swapname address_map data_map) := by
  unfold no_newline swapname A D
  simp only []
  apply foldl_set_forall (fun x => '\n' ∉ x.data)
  · apply foldl_set_forall (fun x => '\n' ∉ x.data)
    · intro x hx
      rcases List.mem_or_eq_of_mem_set hx with h | h
      · rw [List.eq_of_mem_replicate h]; simp
      · rw [h]; exact no_newline_name_getD 0
    · intro i; exact no_newline_name_getD _
  · intro i; exact no_newline_name_getD _

theorem swapname_none (address_map data_map : List Nat) :
    (swapname address_map data_map).getD NONE "" = "" := by
  unfold swapname A D NONE
  simp only []
  rw [foldl_set_getD (fun i => name.getD (9 + address_map.getD i 0) "") 9 20,
    if_neg (by omega),
    foldl_set_getD (fun i => name.getD (1 + data_map.getD i 0) "") 1 8,
    if_neg (by omega)]
  rfl

theorem pin_signal_eq (limit p : Nat) :
    (limit < jedec.getD p 0 → pin_signal limit p = NONE) ∧
    (jedec.getD p 0 ≤ limit → pin_signal limit p = jedec.getD p 0) := by
  unfold pin_signal
  constructor
  · intro h; rw [if_pos h]
  · intro h; rw [if_neg (by omega)]

/-! ## The names the diagram shows -/

theorem source_names_eq (source destination : List String) (limit : Nat) :
    source_names (diagram_rows source destination limit) =
      (displayed_pins limit).map (fun p => source.getD (pin_signal limit p) "") := by
  unfold source_names diagram_rows displayed_pins
  generalize diagram_indices limit = l
  induction l with
  | nil => rfl
  | cons i l ih =>
    simp only [List.map_cons, List.flatMap_cons, List.map_append, ih]
    rfl

theorem destination_names_eq (source destination : List String) (limit : Nat) :
    destination_names (diagram_rows source destination limit) =
      (displayed_pins limit).map (fun p => destination.getD (pin_signal limit p) "") := by
  unfold destination_names diagram_rows displayed_pins
  generalize diagram_indices limit = l
  induction l with
  | nil => rfl
  | cons i l ih =>
    simp only [List.map_cons, List.flatMap_cons, List.map_append, ih]
    rfl

theorem pin_signal_le (limit p : Nat) : pin_signal limit p ≤ limit := by
  unfold pin_signal NONE
  split <;> omega

theorem name_injective (x y : Nat) (hx : x < 29) (hy : y < 29)
    (h : name.getD x "" = name.getD y "") : x = y := by
  revert h
  interval_cases x <;> interval_cases y <;> decide

theorem count_names_of_bijection (sigs : List Nat) (σ : Nat → Nat) (limit : Nat)
    (hlimit : limit ≤ 28)
    (hle : ∀ t, t ∈ sigs → t ≤ limit)
    (hcount : ∀ s, 1 ≤ s → s ≤ limit → sigs.count s = 1)
    (hrange : ∀ t, t ≤ limit → σ t ≤ limit)
    (hinj : ∀ t u, t ≤ limit → u ≤ limit → σ t = σ u → t = u)
    (hsurj : ∀ s, 1 ≤ s → s ≤ limit → ∃ t, 1 ≤ t ∧ t ≤ limit ∧ σ t = s)
    (s : Nat) (h1 : 1 ≤ s) (hs : s ≤ limit) :
    (sigs.map (fun t => name.getD (σ t) "")).count (name.getD s "") = 1 := by
  obtain ⟨t0, ht1, htl, hts⟩ := hsurj s h1 hs
  rw [← hcount t0 ht1 htl, List.count_eq_countP, List.countP_map, List.count_eq_countP]
  apply List.countP_congr
  intro t ht
  have htle := hle t ht
  simp only [Function.comp, beq_iff_eq]
  constructor
  · intro h
    have h2 : σ t = s := name_injective _ _ (by have := hrange t htle; omega) (by omega) h
    exact hinj t t0 htle htl (by rw [h2, hts])
  · intro h
    rw [h, hts]

theorem swapname_getD (address_map data_map : List Nat) (t : Nat) (ht : t < 29) :
    (swapname address_map data_map).getD t "" =
      name.getD (swap_index address_map data_map t) "" := by
  unfold swap_index
  by_cases h0 : t = 0
  · subst h0
    rw [if_pos rfl]
    exact swapname_none address_map data_map
  · rw [if_neg h0]
    by_cases h8 : t ≤ 8
    · rw [if_pos h8]
      obtain ⟨b, rfl⟩ : ∃ b, t = 1 + b := ⟨t - 1, by omega⟩
      rw [Nat.add_sub_cancel_left]
      exact swapname_data address_map data_map b (by omega)
    · rw [if_neg h8]
      obtain ⟨b, rfl⟩ : ∃ b, t = 9 + b := ⟨t - 9, by omega⟩
      rw [Nat.add_sub_cancel_left]
      exact swapname_address address_map data_map b (by omega)

theorem swap_index_range (W : Nat) (address_map data_map : List Nat)
    (hA : PermOn (W + 1) (fun b => address_map.getD b 0))
    (hD : PermOn 8 (fun b => data_map.getD b 0)) (t : Nat) (ht : t ≤ A W) :
    swap_index address_map data_map t ≤ A W ∧
    (1 ≤ t → 1 ≤ swap_index address_map data_map t) ∧
    (t ≤ 8 ↔ swap_index address_map data_map t ≤ 8) := by
  unfold swap_index A D at *
  by_cases h0 : t = 0
  · rw [if_pos h0]; omega
  · rw [if_neg h0]
    by_cases h8 : t ≤ 8
    · rw [if_pos h8]
      have := hD.1 (t - 1) (by omega)
      simp only [] at this
      omega
    · rw [if_neg h8]
      have := hA.1 (t - 9) (by omega)
      simp only [] at this
      omega

theorem swap_index_injective (W : Nat) (address_map data_map : List Nat)
    (hA : PermOn (W + 1) (fun b => address_map.getD b 0))
    (hD : PermOn 8 (fun b => data_map.getD b 0)) (t u : Nat) (ht : t ≤ A W) (hu : u ≤ A W)
    (h : swap_index address_map data_map t = swap_index address_map data_map u) : t = u := by
  have rt := swap_index_range W address_map data_map hA hD t ht
  have ru := swap_index_range W address_map data_map hA hD u hu
  by_cases ht0 : t = 0
  · by_cases hu0 : u = 0
    · omega
    · have h1 := ru.2.1 (by omega)
      rw [← h, ht0] at h1
      unfold swap_index at h1
      simp at h1
  · by_cases hu0 : u = 0
    · have h1 := rt.2.1 (by omega)
      rw [h, hu0] at h1
      unfold swap_index at h1
      simp at h1
    · have h8 : t ≤ 8 ↔ u ≤ 8 := by rw [rt.2.2, ru.2.2, h]
      unfold A at ht hu
      unfold swap_index A D at h
      rw [if_neg ht0, if_neg hu0] at h
      by_cases ht8 : t ≤ 8
      · rw [if_pos ht8, if_pos (h8.mp ht8)] at h
        have := hD.2.1 (t - 1) (u - 1) (by omega) (by have := h8.mp ht8; omega) (by
          simp only []; omega)
        have := h8.mp ht8
        omega
      · have hu8 : ¬ u ≤ 8 := fun hh => ht8 (h8.mpr hh)
        rw [if_neg ht8, if_neg hu8] at h
        have := hA.2.1 (t - 9) (u - 9) (by omega) (by omega) (by simp only []; omega)
        omega

theorem swap_index_surjective (W : Nat) (address_map data_map : List Nat)
    (hA : PermOn (W + 1) (fun b => address_map.getD b 0))
    (hD : PermOn 8 (fun b => data_map.getD b 0)) (s : Nat) (h1 : 1 ≤ s) (hs : s ≤ A W) :
    ∃ t, 1 ≤ t ∧ t ≤ A W ∧ swap_index address_map data_map t = s := by
  unfold A at hs
  by_cases h8 : s ≤ 8
  · obtain ⟨b, hb, hbs⟩ := hD.2.2 (s - 1) (by omega)
    simp only [] at hbs
    refine ⟨1 + b, by omega, by unfold A; omega, ?_⟩
    unfold swap_index D
    rw [if_neg (by omega), if_pos (by omega)]
    have : 1 + b - 1 = b := by omega
    rw [this, hbs]; omega
  · obtain ⟨b, hb, hbs⟩ := hA.2.2 (s - 9) (by omega)
    simp only [] at hbs
    refine ⟨9 + b, by omega, by unfold A; omega, ?_⟩
    unfold swap_index A
    rw [if_neg (by omega), if_neg (by omega)]
    have : 9 + b - 9 = b := by omega
    rw [this, hbs]; omega

theorem displayed_signals_count (W : Nat) (h9 : 9 ≤ W) (h19 : W ≤ 19) :
    ∀ s, s < 29 → 1 ≤ s → s ≤ A W →
      ((displayed_pins (A W)).map (pin_signal (A W))).count s = 1 := by
  interval_cases W <;> decide

theorem displayed_jedec_count (W : Nat) (h9 : 9 ≤ W) (h19 : W ≤ 19) :
    ∀ s, s < 29 → 1 ≤ s → s ≤ A W →
      ((displayed_pins (A W)).map (fun p => jedec.getD p 0)).count s = 1 := by
  interval_cases W <;> decide

theorem skipped_rows_inactive (W : Nat) (h9 : 9 ≤ W) (h19 : W ≤ 19) :
    ∀ i, i < diagram_start (A W) →
      (jedec.getD i 0 = NONE ∨ A W < jedec.getD i 0) ∧
      (jedec.getD (31 - i) 0 = NONE ∨ A W < jedec.getD (31 - i) 0) := by
  interval_cases W <;> decide

theorem map_table_eq (T : List String) (σ : Nat → Nat) (limit : Nat) (l : List Nat)
    (h : ∀ t, t ≤ limit → T.getD t "" = name.getD (σ t) "") :
    l.map (fun p => T.getD (pin_signal limit p) "") =
      (l.map (pin_signal limit)).map (fun t => name.getD (σ t) "") := by
  rw [List.map_map]
  apply List.map_congr_left
  intro p _
  exact h _ (pin_signal_le limit p)

theorem count_table_names (W : Nat) (address_map data_map : List Nat)
    (h9 : 9 ≤ W) (h19 : W ≤ 19)
    (hA : valid_address_map W address_map) (hD : valid_data_map data_map)
    (s : Nat) (h1 : 1 ≤ s) (hs : s ≤ A W) :
    ((displayed_pins (A W)).map (fun p => name.getD (pin_signal (A W) p) "")).count
        (name.getD s "") = 1 ∧
    ((displayed_pins (A W)).map (fun p =>
        (swapname address_map data_map).getD (pin_signal (A W) p) "")).count
        (name.getD s "") = 1 := by
  have hlimit : A W ≤ 28 := by unfold A; omega
  have hle : ∀ t, t ∈ (displayed_pins (A W)).map (pin_signal (A W)) → t ≤ A W := by
    intro t ht
    obtain ⟨p, _, rfl⟩ := List.mem_map.mp ht
    exact pin_signal_le (A W) p
  have hcount : ∀ s, 1 ≤ s → s ≤ A W →
      ((displayed_pins (A W)).map (pin_signal (A W))).count s = 1 :=
    fun s h1 hs => displayed_signals_count W h9 h19 s (by omega) h1 hs
  have hPA := valid_address_permOn W address_map hA
  have hPD := valid_data_permOn data_map hD
  constructor
  · rw [map_table_eq name (fun t => t) (A W) _ (fun t _ => rfl)]
    exact count_names_of_bijection _ (fun t => t) (A W) hlimit hle hcount
      (fun t ht => ht) (fun t u _ _ h => h) (fun s h1 hs => ⟨s, h1, hs, rfl⟩) s h1 hs
  · rw [map_table_eq (swapname address_map data_map) (swap_index address_map data_map)
      (A W) _ (fun t ht => swapname_getD address_map data_map t (by omega))]
    exact count_names_of_bijection _ (swap_index address_map data_map) (A W) hlimit hle
      hcount
      (fun t ht => (swap_index_range W address_map data_map hPA hPD t ht).1)
      (swap_index_injective W address_map data_map hPA hPD)
      (swap_index_surjective W address_map data_map hPA hPD) s h1 hs

/-! ## The rows of the diagram, one by one -/

theorem diagram_start_le (limit : Nat) : diagram_start limit ≤ 4 := by
  unfold diagram_start
  split
  · split <;> omega
  · omega

theorem diagram_rows_getElem? (source destination : List String) (limit i : Nat)
    (h1 : diagram_start limit ≤ i) (h2 : i < 16) :
    (diagram_rows source destination limit)[i - diagram_start limit]? =
      some (diagram_row source destination limit i) := by
  unfold diagram_rows diagram_indices
  rw [List.getElem?_map, List.getElem?_range' _ _ (by omega)]
  simp only [Option.map_some', Nat.one_mul]
  congr 2
  omega

theorem diagram_text_eq (source destination : List String) (limit : Nat) :
    diagram source destination limit =
      "      ___ ___\n" ++ "     |   U   |\n" ++
        String.join ((List.range' (diagram_start limit) (16 - diagram_start limit)).map
          (fun i => format_row (diagram_row source destination limit i))) ++
        "     |_______|\n" := by
  unfold diagram diagram_rows diagram_indices
  rw [List.map_map]
  rfl

theorem diagram_row_blanking (source destination : List String) (limit i : Nat)
    (hs : source.getD NONE "" = "") (hd : destination.getD NONE "" = "") :
    (limit < jedec.getD i 0 →
      (diagram_row source destination limit i).left_source = "" ∧
      (diagram_row source destination limit i).left_destination = "") ∧
    (jedec.getD i 0 ≤ limit →
      (diagram_row source destination limit i).left_source =
        source.getD (jedec.getD i 0) "" ∧
      (diagram_row source destination limit i).left_destination =
        destination.getD (jedec.getD i 0) "") ∧
    (limit < jedec.getD (31 - i) 0 →
      (diagram_row source destination limit i).right_source = "" ∧
      (diagram_row source destination limit i).right_destination = "") ∧
    (jedec.getD (31 - i) 0 ≤ limit →
      (diagram_row source destination limit i).right_source =
        source.getD (jedec.getD (31 - i) 0) "" ∧
      (diagram_row source destination limit i).right_destination =
        destination.getD (jedec.getD (31 - i) 0) "") := by
  refine ⟨?_, ?_, ?_, ?_⟩
  · intro h
    simp only [diagram_row, (pin_signal_eq limit i).1 h, hs, hd, and_self]
  · intro h
    simp only [diagram_row, (pin_signal_eq limit i).2 h, and_self]
  · intro h
    simp only [diagram_row, (pin_signal_eq limit (31 - i)).1 h, hs, hd, and_self]
  · intro h
    simp only [diagram_row, (pin_signal_eq limit (31 - i)).2 h, and_self]

/-! ## More on the index maps and the pass -/

theorem bit_shl_zero_of_lt (i b p n : Nat) (hi : i < 2 ^ n) (hb : n ≤ b) :
    (i >>> b &&& 1) <<< p = 0 := by
  have h : i >>> b = 0 := by
    rw [Nat.shiftRight_eq_div_pow]
    exact Nat.div_eq_of_lt (lt_of_lt_of_le hi (Nat.pow_le_pow_right (by decide) hb))
  rw [h]
  simp

theorem scatter_eq_gather_inverse (a a' : Nat → Nat) (n i : Nat) (h : PermOn n a)
    (hinv : ∀ b, b < n → a' (a b) = b) :
    or_scatter a n i = or_gather a' n i := by
  apply Nat.eq_of_testBit_eq
  intro k
  rw [Bool.eq_iff_iff, testBit_or_scatter, testBit_or_gather]
  simp only [Bool.and_eq_true, decide_eq_true_eq]
  constructor
  · rintro ⟨b, hb, hab, hbit⟩
    have hk : k < n := by rw [← hab]; exact h.1 b hb
    refine ⟨hk, ?_⟩
    rw [← hab, hinv b hb]; exact hbit
  · rintro ⟨hk, hbit⟩
    obtain ⟨b, hb, hab⟩ := h.2.2 k hk
    refine ⟨b, hb, hab, ?_⟩
    rw [← hab, hinv b hb] at hbit
    exact hbit

theorem valid_address_permOn_20 (W : Nat) (address_map : List Nat) (hW : W < 20)
    (h : valid_address_map W address_map) :
    PermOn 20 (fun b => address_map.getD b 0) := by
  have hP := valid_address_permOn W address_map h
  have hid := h.2.2
  refine ⟨?_, ?_, ?_⟩
  · intro b hb
    by_cases hbW : b < W + 1
    · have := hP.1 b hbW
      simp only [] at this ⊢
      omega
    · simp only []
      rw [hid b hb (by omega)]; exact hb
  · intro b c hb hc hbc
    simp only [] at hbc
    by_cases hbW : b < W + 1
    · by_cases hcW : c < W + 1
      · exact hP.2.1 b c hbW hcW hbc
      · have := hP.1 b hbW
        simp only [] at this
        rw [hid c hc (by omega)] at hbc
        omega
    · by_cases hcW : c < W + 1
      · have := hP.1 c hcW
        simp only [] at this
        rw [hid b hb (by omega)] at hbc
        omega
      · rw [hid b hb (by omega), hid c hc (by omega)] at hbc
        exact hbc
  · intro k hk
    by_cases hkW : k < W + 1
    · obtain ⟨b, hb, hbk⟩ := hP.2.2 k hkW
      exact ⟨b, by omega, hbk⟩
    · exact ⟨k, hk, hid k hk (by omega)⟩

theorem copy_loop_congr (index index' : Nat → Nat) (table table' input : List Nat)
    (n : Nat) (output : List Nat)
    (hindex : ∀ i, i < n → index i = index' i)
    (htable : ∀ i, i < n → table.getD (input.getD i 0) 0 = table'.getD (input.getD i 0) 0) :
    copy_loop index table input n output = copy_loop index' table' input n output := by
  induction n with
  | zero => rfl
  | succ n ih =>
    simp only [copy_loop]
    rw [ih (fun i hi => hindex i (by omega)) (fun i hi => htable i (by omega)),
      hindex n (by omega), htable n (by omega)]

theorem transform_buffer_independent (reverse : Bool) (W : Nat)
    (address_map data_map image buffer₁ buffer₂ : List Nat)
    (hW : W < 20) (hA : valid_address_map W address_map)
    (hlen : image.length = 2 ^ (W + 1))
    (hb₁ : buffer₁.length = image.length) (hb₂ : buffer₂.length = image.length) :
    transform reverse address_map data_map image buffer₁ =
      transform reverse address_map data_map image buffer₂ := by
  obtain ⟨out₁, hrun₁, hl₁, hw₁⟩ :=
    transform_spec reverse W address_map data_map image buffer₁ hW hA hlen hb₁
  obtain ⟨out₂, hrun₂, hl₂, hw₂⟩ :=
    transform_spec reverse W address_map data_map image buffer₂ hW hA hlen hb₂
  rw [hrun₁, hrun₂]
  refine congrArg some ?_
  apply list_ext_getD out₁ out₂ (by omega)
  intro o ho
  obtain ⟨i, ⟨hi, hio⟩, _⟩ :=
    index_bijective reverse W address_map o hW hA (by omega)
  have h1 := hw₁ i (by omega)
  have h2 := hw₂ i (by omega)
  rw [hio] at h1 h2
  rw [h1, h2]

theorem reverse_eq_forward_inverse (W : Nat)
    (address_map data_map address_map' data_map' image buffer₁ buffer₂ : List Nat)
    (h19 : W ≤ 19)
    (hA : valid_address_map W address_map) (hD : valid_data_map data_map)
    (hAinv : ∀ b, b ≤ W → address_map'.getD (address_map.getD b 0) 0 = b)
    (hAid : ∀ b, b < 20 → W < b → address_map'.getD b 0 = b)
    (hDinv : ∀ b, b < 8 → data_map'.getD (data_map.getD b 0) 0 = b)
    (hlen : image.length = 2 ^ (W + 1)) (hbytes : is_bytes image)
    (hb₁ : buffer₁.length = image.length) (hb₂ : buffer₂.length = image.length) :
    transform true address_map data_map image buffer₁ =
      transform false address_map' data_map' image buffer₂ := by
  have hW : W < 20 := by omega
  rw [transform_buffer_independent true W address_map data_map image buffer₁ buffer₂
    hW hA hlen hb₁ hb₂]
  unfold transform
  simp only [Bool.false_eq_true, if_false, if_true]
  apply copy_loop_congr
  · intro i _
    rw [reverse_index_eq, forward_index_eq]
    apply scatter_eq_gather_inverse _ _ 20 i (valid_address_permOn_20 W address_map hW hA)
    intro b hb
    show address_map'.getD (address_map.getD b 0) 0 = b
    by_cases hbW : b ≤ W
    · exact hAinv b hbW
    · rw [hA.2.2 b hb (by omega)]
      exact hAid b hb (by omega)
  · intro i _
    have hx := getD_lt_of_is_bytes image hbytes i
    rw [bitswap_reverse_val data_map _ hD hx, bitswap_forward_val data_map' _ hx]
    exact scatter_eq_gather_inverse _ _ 8 _ (valid_data_permOn data_map hD) hDinv

/-! ## The trace of the `-a` loop -/

theorem address_scan_trace_cons (j : Nat) (field : Option Nat) (rest : List (Option Nat))
    (map : List Nat) :
    address_scan_trace (j + 1) (field :: rest) map =
      (j :: (address_scan_trace j rest (sscanf_store field map j)).1,
        (address_scan_trace j rest (sscanf_store field map j)).2) := rfl

theorem sscanf_store_length (field : Option Nat) (map : List Nat) (j : Nat) :
    (sscanf_store field map j).length = map.length := by
  cases field <;> simp [sscanf_store]

theorem sscanf_store_getD_ne (field : Option Nat) (map : List Nat) (j k : Nat) (h : j ≠ k) :
    (sscanf_store field map j).getD k 0 = map.getD k 0 := by
  cases field with
  | none => rfl
  | some v => exact getD_set_ne map j k v h

theorem address_scan_trace_spec (n : Nat) (fields : List (Option Nat)) (map : List Nat) :
    (address_scan_trace n fields map).1 =
      (List.range (min n fields.length)).map (fun k => n - 1 - k) ∧
    (address_scan_trace n fields map).2.length = map.length ∧
    (∀ j, j ∉ (address_scan_trace n fields map).1 →
      (address_scan_trace n fields map).2.getD j 0 = map.getD j 0) := by
  induction n generalizing fields map with
  | zero => exact ⟨by simp [address_scan_trace], rfl, fun _ _ => rfl⟩
  | succ n ih =>
    cases fields with
    | nil => exact ⟨by simp [address_scan_trace], rfl, fun _ _ => rfl⟩
    | cons field rest =>
      rw [address_scan_trace_cons]
      obtain ⟨h1, h2, h3⟩ := ih rest (sscanf_store field map n)
      refine ⟨?_, ?_, ?_⟩
      · simp only [List.length_cons, Nat.add_min_add_right]
        rw [List.range_succ_eq_map, List.map_cons, List.map_map, h1]
        congr 1
        apply List.map_congr_left
        intro k hk
        rw [List.mem_range] at hk
        simp only [Function.comp]
        omega
      · rw [h2, sscanf_store_length]
      · intro j hj
        rw [List.mem_cons, not_or] at hj
        rw [h3 j hj.2]
        exact sscanf_store_getD_ne field map n j (fun e => hj.1 e.symm)

theorem address_scan_trace_visited_lt (n : Nat) (fields : List (Option Nat)) (map : List Nat)
    (j : Nat) (hj : j ∈ (address_scan_trace n fields map).1) : j < n := by
  rw [(address_scan_trace_spec n fields map).1] at hj
  obtain ⟨k, hk, rfl⟩ := List.mem_map.mp hj
  rw [List.mem_range] at hk
  omega

theorem address_scan_map_eq_trace (w n : Nat) (fields : List (Option Nat)) (map : List Nat)
    (bits : Nat) (m : List Nat) (b : Nat)
    (h : address_scan w n fields map bits = some (m, b)) :
    m = (address_scan_trace n fields map).2 := by
  induction n generalizing fields map bits with
  | zero =>
    simp only [address_scan, Option.some.injEq, Prod.mk.injEq] at h
    exact h.1.symm
  | succ n ih =>
    cases fields with
    | nil => simp [address_scan] at h
    | cons field rest =>
      rw [address_scan_cons] at h
      rw [address_scan_trace_cons]
      exact ih rest _ _ h

/-! ## The option loop -/

theorem option_loop_cons (w highest_address_bit : Nat) (writable : String → Bool)
    (arg : Arg) (rest : List Arg) (options : Options) (opened : List String) :
    option_loop w highest_address_bit writable (arg :: rest) options opened =
      if arg.text.data.take 2 = ['-', 'a'] then
        match parse_address w highest_address_bit arg.fields options.address_map with
        | none => (none, opened)
        | some address_map =>
          option_loop w highest_address_bit writable rest
            { options with address_map := address_map } opened
      else if arg.text.data.take 2 = ['-', 'd'] then
        match parse_data arg.fields options.data_map with
        | none => (none, opened)
        | some data_map =>
          option_loop w highest_address_bit writable rest
            { options with data_map := data_map } opened
      else if arg.text = "-r" then
        option_loop w highest_address_bit writable rest { options with reverse := true } opened
      else
        match rest with
        | file :: rest' =>
          if arg.text = "-o" then
            if options.outfile.isSome then (none, opened)
            else if writable file.text then
              option_loop w highest_address_bit writable rest'
                { options with outfile := some file.text } (opened ++ [file.text])
            else (none, opened)
          else (none, opened)
        | [] => (none, opened) := by
  cases rest <;> rfl

theorem option_loop_fails_at (w highest_address_bit : Nat) (writable : String → Bool)
    (bad : Arg) (post : List Arg) (options : Options) (opened : List String)
    (h : (bad.text.data.take 2 = ['-', 'a'] ∧
          parse_address w highest_address_bit bad.fields options.address_map = none) ∨
        (bad.text.data.take 2 = ['-', 'd'] ∧
          parse_data bad.fields options.data_map = none)) :
    option_loop w highest_address_bit writable (bad :: post) options opened = (none, opened) := by
  rw [option_loop_cons]
  rcases h with ⟨ha, hp⟩ | ⟨hd, hp⟩
  · rw [if_pos ha, hp]
  · have hna : ¬ bad.text.data.take 2 = ['-', 'a'] := by
      rw [hd]; decide
    rw [if_neg hna, if_pos hd, hp]

theorem option_loop_append (w highest_address_bit : Nat) (writable : String → Bool)
    (pre rest : List Arg) (options options' : Options) (opened opened' : List String)
    (h : option_loop w highest_address_bit writable pre options opened
      = (some options', opened')) :
    option_loop w highest_address_bit writable (pre ++ rest) options opened =
      option_loop w highest_address_bit writable rest options' opened' := by
  generalize hn : pre.length = n
  induction n using Nat.strong_induction_on generalizing pre options opened with
  | _ n ih =>
    cases pre with
    | nil =>
      simp only [option_loop, Prod.mk.injEq, Option.some.injEq] at h
      rw [List.nil_append, h.1, h.2]
    | cons arg pre' =>
      rw [option_loop_cons] at h
      rw [List.cons_append, option_loop_cons]
      have hlt : pre'.length < n := by rw [← hn]; simp
      by_cases ha : arg.text.data.take 2 = ['-', 'a']
      · rw [if_pos ha] at h ⊢
        cases hp : parse_address w highest_address_bit arg.fields options.address_map with
        | none => rw [hp] at h; simp at h
        | some m =>
          rw [hp] at h
          exact ih _ hlt pre' _ _ h rfl
      · rw [if_neg ha] at h ⊢
        by_cases hd : arg.text.data.take 2 = ['-', 'd']
        · rw [if_pos hd] at h ⊢
          cases hp : parse_data arg.fields options.data_map with
          | none => rw [hp] at h; simp at h
          | some m =>
            rw [hp] at h
            exact ih _ hlt pre' _ _ h rfl
        · rw [if_neg hd] at h ⊢
          by_cases hr : arg.text = "-r"
          · rw [if_pos hr] at h ⊢
            exact ih _ hlt pre' _ _ h rfl
          · rw [if_neg hr] at h ⊢
            cases pre' with
            | nil => simp at h
            | cons file pre'' =>
              simp only [List.cons_append] at h ⊢
              by_cases ho : arg.text = "-o"
              · rw [if_pos ho] at h ⊢
                by_cases hout : options.outfile.isSome = true
                · rw [if_pos hout] at h; simp at h
                · rw [if_neg hout] at h ⊢
                  by_cases hwr : writable file.text = true
                  · rw [if_pos hwr] at h ⊢
                    exact ih _ (by rw [← hn]; simp; omega) pre'' _ _ h rfl
                  · rw [if_neg hwr] at h; simp at h
              · rw [if_neg ho] at h; simp at h

theorem option_loop_opened (w highest_address_bit : Nat) (writable : String → Bool)
    (pre : List Arg) (options options' : Options) (opened opened' : List String)
    (h : option_loop w highest_address_bit writable pre options opened
      = (some options', opened')) :
    (opened = options.outfile.toList → opened' = options'.outfile.toList) ∧
    ((∀ a, a ∈ pre → a.text ≠ "-o") → opened' = opened) := by
  generalize hn : pre.length = n
  induction n using Nat.strong_induction_on generalizing pre options opened with
  | _ n ih =>
    cases pre with
    | nil =>
      simp only [option_loop, Prod.mk.injEq, Option.some.injEq] at h
      rw [← h.1, ← h.2]
      exact ⟨fun e => e, fun _ => rfl⟩
    | cons arg pre' =>
      rw [option_loop_cons] at h
      have hlt : pre'.length < n := by rw [← hn]; simp
      have hmem : ∀ P : Arg → Prop, (∀ a, a ∈ arg :: pre' → P a) → ∀ a, a ∈ pre' → P a :=
        fun P hP a ha => hP a (List.mem_cons_of_mem arg ha)
      by_cases ha : arg.text.data.take 2 = ['-', 'a']
      · rw [if_pos ha] at h
        cases hp : parse_address w highest_address_bit arg.fields options.address_map with
        | none => rw [hp] at h; simp at h
        | some m =>
          rw [hp] at h
          have := ih _ hlt pre' _ _ h rfl
          exact ⟨this.1, fun hno => this.2 (hmem _ hno)⟩
      · rw [if_neg ha] at h
        by_cases hd : arg.text.data.take 2 = ['-', 'd']
        · rw [if_pos hd] at h
          cases hp : parse_data arg.fields options.data_map with
          | none => rw [hp] at h; simp at h
          | some m =>
            rw [hp] at h
            have := ih _ hlt pre' _ _ h rfl
            exact ⟨this.1, fun hno => this.2 (hmem _ hno)⟩
        · rw [if_neg hd] at h
          by_cases hr : arg.text = "-r"
          · rw [if_pos hr] at h
            have := ih _ hlt pre' _ _ h rfl
            exact ⟨this.1, fun hno => this.2 (hmem _ hno)⟩
          · rw [if_neg hr] at h
            cases pre' with
            | nil => simp at h
            | cons file pre'' =>
              simp only [] at h
              by_cases ho : arg.text = "-o"
              · rw [if_pos ho] at h
                by_cases hout : options.outfile.isSome = true
                · rw [if_pos hout] at h; simp at h
                · rw [if_neg hout] at h
                  by_cases hwr : writable file.text = true
                  · rw [if_pos hwr] at h
                    have := ih _ (by rw [← hn]; simp; omega) pre'' _ _ h rfl
                    refine ⟨fun e => this.1 ?_, fun hno => ?_⟩
                    · have hnone : options.outfile = none := by
                        cases hof : options.outfile with
                        | none => rfl
                        | some f => rw [hof] at hout; simp at hout
                      rw [e, hnone]; rfl
                    · exact absurd ho (hno arg (List.mem_cons_self _ _))
                  · rw [if_neg hwr] at h; simp at h
              · rw [if_neg ho] at h; simp at h

theorem main_run_of_loop_failure (w : Nat) (writable : String → Bool) (args : List Arg)
    (input buffer : List Nat) (highest_address_bit : Nat) (opened : List String)
    (hsize : size_check input.length = .ok highest_address_bit)
    (hloop : option_loop w highest_address_bit writable args initial_options []
      = (none, opened)) :
    main_run w writable args input buffer =
      { success := false, opened := opened, written := none, printed := none } := by
  unfold main_run
  rw [hsize]
  simp only []
  rw [hloop]

/-! ## What a run prints and writes -/

/-- A run that reaches the diagram with a map other than the default: for a
1 KiB image the options `-a9,8,7,6,5,4,3,0,2,1 -d7,6,5,4,0,1,2,3` are accepted
and leave `reverse` unset and no output file. -/
theorem option_loop_example :
    option_loop 64 9 (fun _ => true)
        [⟨"-a9,8,7,6,5,4,3,0,2,1", [9,8,7,6,5,4,3,0,2,1].map some⟩,
          ⟨"-d7,6,5,4,0,1,2,3", [7,6,5,4,0,1,2,3].map some⟩]
        initial_options [] =
      (some (Options.mk [1,2,0,3,4,5,6,7,8,9,10,11,12,13,14,15,16,17,18,19]
        [3,2,1,0,4,5,6,7] false none), []) := by
  decide

/-- C1: for every active width `W` in `9..19`, valid `address_map` and
`data_map`, and image of `2 ^ (W + 1)` bytes, the forward (non `-r`) transform
runs to an output, and the reverse (`-r`) transform of that output with the
same maps runs to exactly the original image, whatever the initial content of
the two output buffers. -/
theorem image_round_trip (W : Nat) (address_map data_map image buffer₁ buffer₂ : List Nat)
    (_h9 : 9 ≤ W) (h19 : W ≤ 19)
    (hA : valid_address_map W address_map) (hD : valid_data_map data_map)
    (hlen : image.length = 2 ^ (W + 1)) (hbytes : is_bytes image)
    (hb₁ : buffer₁.length = image.length) (hb₂ : buffer₂.length = image.length) :
    ∃ out, transform false address_map data_map image buffer₁ = some out ∧
      transform true address_map data_map out buffer₂ = some image := by
  have hW : W < 20 := by omega
  obtain ⟨out, hrun, hl, hw⟩ :=
    transform_spec false W address_map data_map image buffer₁ hW hA hlen hb₁
  obtain ⟨back, hrun', hl', hw'⟩ :=
    transform_spec true W address_map data_map out buffer₂ hW hA (by omega) (by omega)
  refine ⟨out, hrun, ?_⟩
  rw [hrun']
  congr 1
  apply list_ext_getD back image (by omega)
  intro o ho
  have ho' : o < 2 ^ (W + 1) := by omega
  have hj : forward_index address_map o < 2 ^ (W + 1) :=
    forward_index_lt W address_map o hW hA ho'
  have h1 := hw o (by omega)
  have h2 := hw' (forward_index address_map o) (by omega)
  simp only [Bool.false_eq_true, if_false] at h1
  simp only [if_true] at h2
  rw [reverse_forward_index W address_map o hW hA ho'] at h2
  rw [h2, h1, bitswap_forward_val data_map _ (getD_lt_of_is_bytes image hbytes o),
    bitswap_reverse_val data_map _ hD (or_gather_lt _ 8 _)]
  exact scatter_gather _ 8 _ (valid_data_permOn data_map hD) (getD_lt_of_is_bytes image hbytes o)

theorem image_round_trip_witness :
    ∃ out, transform false [1,2,0,3,4,5,6,7,8,9,10,11,12,13,14,15,16,17,18,19]
        [3,0,1,2,7,6,5,4] ((List.replicate 1024 0).set 5 0x42) (List.replicate 1024 0)
        = some out ∧
      transform true [1,2,0,3,4,5,6,7,8,9,10,11,12,13,14,15,16,17,18,19]
        [3,0,1,2,7,6,5,4] out (List.replicate 1024 0)
        = some ((List.replicate 1024 0).set 5 0x42) :=
  image_round_trip 9 [1,2,0,3,4,5,6,7,8,9,10,11,12,13,14,15,16,17,18,19]
    [3,0,1,2,7,6,5,4] ((List.replicate 1024 0).set 5 0x42)
    (List.replicate 1024 0) (List.replicate 1024 0) (by decide) (by decide)
    (by decide) (by decide) (by rw [List.length_set, List.length_replicate]; rfl)
    (is_bytes_single 1024 5 0x42 (by decide))
    (by rw [List.length_set]) (by rw [List.length_set])

/-- C3: the bitmask check of an option accepts exactly the permutations.  For
every active width `9 ≤ W ≤ 19` the `-a` check (accumulator of `w ≥ 32` bits)
accepts if and only if the option supplies `W + 1` fields and the values it
then finds in `address_map[W], ..., address_map[0]` are a permutation of
`0..W`; the `-d` check accepts if and only if it is given 8 fields and the
values in `data_map[7], ..., data_map[0]` are a permutation of `0..7`.  In
particular a duplicate, a value out of range (whether or not it passes the
guard `< 32`, resp. `< 8`) or a missing value makes the check reject. -/
theorem validator_correct (w W : Nat) (address_fields data_fields : List (Option Nat))
    (address_map data_map : List Nat)
    (hw : 32 ≤ w) (_h9 : 9 ≤ W) (h19 : W ≤ 19)
    (hlen : address_map.length = 20) (hdlen : data_map.length = 8) :
    ((parse_address w W address_fields address_map).isSome = true ↔
      (W + 1 ≤ address_fields.length ∧
        (checked_values (W + 1) address_fields address_map).Perm (List.range (W + 1)))) ∧
    ((¬ (checked_values (W + 1) address_fields address_map).Nodup ∨
        (∃ v, v ∈ checked_values (W + 1) address_fields address_map ∧ W + 1 ≤ v) ∨
        (∃ k, k < W + 1 ∧ k ∉ checked_values (W + 1) address_fields address_map)) →
      parse_address w W address_fields address_map = none) ∧
    ((parse_data data_fields data_map).isSome = true ↔
      (8 ≤ data_fields.length ∧
        (checked_values 8 data_fields data_map).Perm (List.range 8))) ∧
    ((¬ (checked_values 8 data_fields data_map).Nodup ∨
        (∃ v, v ∈ checked_values 8 data_fields data_map ∧ 8 ≤ v) ∨
        (∃ k, k < 8 ∧ k ∉ checked_values 8 data_fields data_map)) →
      parse_data data_fields data_map = none) := by
  have ha := parse_address_isSome_iff w W address_fields address_map hw h19 hlen
  have hd := parse_data_isSome_iff data_fields data_map hdlen
  refine ⟨ha, ?_, hd, ?_⟩
  · intro h
    cases hr : parse_address w W address_fields address_map with
    | none => rfl
    | some m =>
      rw [hr] at ha
      exact absurd (ha.mp rfl).2 (not_perm_range _ _ h)
  · intro h
    cases hr : parse_data data_fields data_map with
    | none => rfl
    | some m =>
      rw [hr] at hd
      exact absurd (hd.mp rfl).2 (not_perm_range _ _ h)

theorem validator_correct_witness :
    ((parse_address 64 9 ([9,8,7,6,5,4,3,2,0,1].map some) default_address_map).isSome = true ↔
      (9 + 1 ≤ ([9,8,7,6,5,4,3,2,0,1].map some).length ∧
        (checked_values (9 + 1) ([9,8,7,6,5,4,3,2,0,1].map some) default_address_map).Perm
          (List.range (9 + 1)))) ∧
    ((¬ (checked_values (9 + 1) ([9,8,7,6,5,4,3,2,0,1].map some)
          default_address_map).Nodup ∨
        (∃ v, v ∈ checked_values (9 + 1) ([9,8,7,6,5,4,3,2,0,1].map some)
          default_address_map ∧ 9 + 1 ≤ v) ∨
        (∃ k, k < 9 + 1 ∧ k ∉ checked_values (9 + 1) ([9,8,7,6,5,4,3,2,0,1].map some)
          default_address_map)) →
      parse_address 64 9 ([9,8,7,6,5,4,3,2,0,1].map some) default_address_map = none) ∧
    ((parse_data ([7,6,5,4,3,2,1,8].map some) default_data_map).isSome = true ↔
      (8 ≤ ([7,6,5,4,3,2,1,8].map some).length ∧
        (checked_values 8 ([7,6,5,4,3,2,1,8].map some) default_data_map).Perm
          (List.range 8))) ∧
    ((¬ (checked_values 8 ([7,6,5,4,3,2,1,8].map some) default_data_map).Nodup ∨
        (∃ v, v ∈ checked_values 8 ([7,6,5,4,3,2,1,8].map some) default_data_map ∧ 8 ≤ v) ∨
        (∃ k, k < 8 ∧ k ∉ checked_values 8 ([7,6,5,4,3,2,1,8].map some) default_data_map)) →
      parse_data ([7,6,5,4,3,2,1,8].map some) default_data_map = none) :=
  validator_correct 64 9 ([9,8,7,6,5,4,3,2,0,1].map some) ([7,6,5,4,3,2,1,8].map some)
    default_address_map default_data_map (by decide) (by decide) (by decide) rfl rfl

/-- C4: the size check accepts a file length with active width `k` exactly
when `9 ≤ k ≤ 19` and the length is `2 ^ (k + 1)`; lengths 512, 1048577 and
3000 are rejected, length 1024 is accepted with width 9 and length 1048576
with width 19. -/
theorem size_gating :
    (∀ (length : Int) (k : Nat),
      size_check length = .ok k ↔ (9 ≤ k ∧ k ≤ 19 ∧ length = (2 : Int) ^ (k + 1))) ∧
    size_check 512 = .error .too_small ∧
    size_check 1048577 = .error .too_big ∧
    size_check 3000 = .error .not_power_of_two ∧
    size_check 1024 = .ok 9 ∧
    size_check 1048576 = .ok 19 := by
  refine ⟨?_, rfl, rfl, rfl, rfl, rfl⟩
  intro length k
  constructor
  · intro h
    unfold size_check at h
    by_cases hneg : length < 0
    · rw [if_pos hneg] at h; cases h
    · rw [if_neg hneg] at h
      simp only [] at h
      by_cases h0 : find_highest_address_bit length = 0
      · rw [if_pos h0] at h
        split at h
        · cases h
        · split at h <;> cases h
      · rw [if_neg h0] at h
        injection h with hk
        rcases find_highest_address_bit_spec length with hz | ⟨ha, hb, hc⟩
        · exact absurd hz h0
        · rw [hk] at ha hb hc
          refine ⟨ha, hb, ?_⟩
          rw [hc, Nat.shiftLeft_eq, Nat.one_mul]
          push_cast
          rfl
  · rintro ⟨h9, h19, hlen⟩
    subst hlen
    unfold size_check
    have hpos : ¬ ((2 : Int) ^ (k + 1) < 0) := not_lt.mpr (by positivity)
    rw [if_neg hpos]
    simp only []
    rw [find_highest_address_bit_pow k h9 h19]
    rw [if_neg (by omega)]

/-- C5: with the default (identity) `address_map` and `data_map`, for every
active width `W` in `9..19` and every image of `2 ^ (W + 1)` bytes, the
transform runs to an output equal to the image, in forward and in reverse
mode. -/
theorem identity_invariance (reverse : Bool) (W : Nat) (image buffer : List Nat)
    (_h9 : 9 ≤ W) (h19 : W ≤ 19)
    (hlen : image.length = 2 ^ (W + 1)) (hbytes : is_bytes image)
    (hb : buffer.length = image.length) :
    transform reverse default_address_map default_data_map image buffer = some image := by
  have hW : W < 20 := by omega
  have hA := valid_default_address_map W h19
  have hD : valid_data_map default_data_map := by decide
  obtain ⟨out, hrun, hl, hw⟩ :=
    transform_spec reverse W default_address_map default_data_map image buffer hW hA hlen hb
  rw [hrun]
  congr 1
  apply list_ext_getD out image hl
  intro o ho
  have ho' : o < 2 ^ (W + 1) := by omega
  have hx := getD_lt_of_is_bytes image hbytes o
  have h1 := hw o (by omega)
  cases reverse with
  | false =>
    simp only [Bool.false_eq_true, if_false] at h1
    rw [forward_index_active W _ o hW hA ho',
      or_gather_id _ _ o (fun b hb => default_address_map_getD b (by omega)) ho',
      bitswap_forward_val _ _ hx,
      or_gather_id _ 8 _ (fun b hb => default_data_map_getD b hb) hx] at h1
    exact h1
  | true =>
    simp only [if_true] at h1
    rw [reverse_index_active W _ o hW ho',
      or_scatter_id _ _ o (fun b hb => default_address_map_getD b (by omega)) ho',
      bitswap_reverse_val _ _ hD hx,
      or_scatter_id _ 8 _ (fun b hb => default_data_map_getD b hb) hx] at h1
    exact h1

theorem identity_invariance_witness :
    transform true default_address_map default_data_map
      (List.replicate 1024 0) (List.replicate 1024 0) = some (List.replicate 1024 0) :=
  identity_invariance true 9 (List.replicate 1024 0) (List.replicate 1024 0)
    (by decide) (by decide) (by rw [List.length_replicate]; rfl)
    (is_bytes_replicate_zero 1024) rfl

/-- C6: for valid maps, an active width `W` in `9..19` and an image of
`2 ^ (W + 1)` bytes, the pass (forward or reverse) runs to an output of the
same length with `output[index(i)] = bitswap[input[i]]` for every input offset
`i`, and every output offset is the index of exactly one input offset.
Example: for `W = 9`, the map swapping address bits 0 and 1, the identity
`data_map` and the input that is zero except `input[2] = 0x42`, the output is
zero except `output[1] = 0x42`, in either mode. -/
theorem full_permutation_pass (reverse : Bool) (W : Nat)
    (address_map data_map image buffer : List Nat)
    (_h9 : 9 ≤ W) (h19 : W ≤ 19)
    (hA : valid_address_map W address_map) (_hD : valid_data_map data_map)
    (hlen : image.length = 2 ^ (W + 1)) (hb : buffer.length = image.length) :
    (∃ out, transform reverse address_map data_map image buffer = some out ∧
      out.length = image.length ∧
      ∀ i, i < image.length →
        out.getD ((if reverse then reverse_index address_map
            else forward_index address_map) i) 0
          = (bitswap reverse data_map).getD (image.getD i 0) 0) ∧
    (∀ o, o < image.length → ∃! i, i < image.length ∧
      (if reverse then reverse_index address_map else forward_index address_map) i = o) ∧
    (∀ (mode : Bool) (scratch : List Nat), scratch.length = 1024 →
      transform mode [1,0,2,3,4,5,6,7,8,9,10,11,12,13,14,15,16,17,18,19]
        default_data_map ((List.replicate 1024 0).set 2 0x42) scratch
        = some ((List.replicate 1024 0).set 1 0x42)) := by
  have hW : W < 20 := by omega
  refine ⟨transform_spec reverse W address_map data_map image buffer hW hA hlen hb, ?_, ?_⟩
  · intro o ho
    rw [hlen] at ho ⊢
    exact index_bijective reverse W address_map o hW hA ho
  · exact fun mode scratch hs => swap_example mode scratch hs

theorem full_permutation_pass_witness :
    (∃ out, transform true [1,0,2,3,4,5,6,7,8,9,10,11,12,13,14,15,16,17,18,19]
        [7,6,5,4,3,2,1,0] ((List.replicate 1024 0).set 2 0x42) (List.replicate 1024 0)
        = some out ∧
      out.length = ((List.replicate 1024 0).set 2 0x42).length ∧
      ∀ i, i < ((List.replicate 1024 0).set 2 0x42).length →
        out.getD ((if true = true then
            reverse_index [1,0,2,3,4,5,6,7,8,9,10,11,12,13,14,15,16,17,18,19]
            else forward_index [1,0,2,3,4,5,6,7,8,9,10,11,12,13,14,15,16,17,18,19]) i) 0
          = (bitswap true [7,6,5,4,3,2,1,0]).getD
              (((List.replicate 1024 0).set 2 0x42).getD i 0) 0) ∧
    (∀ o, o < ((List.replicate 1024 0).set 2 0x42).length →
      ∃! i, i < ((List.replicate 1024 0).set 2 0x42).length ∧
        (if true = true then
          reverse_index [1,0,2,3,4,5,6,7,8,9,10,11,12,13,14,15,16,17,18,19]
          else forward_index [1,0,2,3,4,5,6,7,8,9,10,11,12,13,14,15,16,17,18,19]) i = o) ∧
    (∀ (mode : Bool) (scratch : List Nat), scratch.length = 1024 →
      transform mode [1,0,2,3,4,5,6,7,8,9,10,11,12,13,14,15,16,17,18,19]
        default_data_map ((List.replicate 1024 0).set 2 0x42) scratch
        = some ((List.replicate 1024 0).set 1 0x42)) :=
  full_permutation_pass true 9 [1,0,2,3,4,5,6,7,8,9,10,11,12,13,14,15,16,17,18,19]
    [7,6,5,4,3,2,1,0] ((List.replicate 1024 0).set 2 0x42) (List.replicate 1024 0)
    (by decide) (by decide) valid_swap_address_map (by decide)
    (by rw [List.length_set, List.length_replicate]; rfl)
    (by rw [List.length_set, List.length_replicate])

/-- C7: for every valid `data_map` the 256-entry `bitswap` table is a
permutation of `0..255`, in forward and in reverse mode. -/
theorem bitswap_table_bijection (reverse : Bool) (data_map : List Nat)
    (hD : valid_data_map data_map) :
    (bitswap reverse data_map).Perm (List.range 256) := by
  have hP := valid_data_permOn data_map hD
  have hnd : (bitswap reverse data_map).Nodup := by
    unfold bitswap
    apply List.Nodup.map_on _ (List.nodup_range 256)
    intro x hx y hy hxy
    rw [List.mem_range] at hx hy
    rw [bitswap_entry reverse data_map hD x hx, bitswap_entry reverse data_map hD y hy] at hxy
    cases reverse with
    | false =>
      simp only [Bool.false_eq_true, if_false] at hxy
      rw [← scatter_gather _ 8 x hP hx, ← scatter_gather _ 8 y hP hy, hxy]
    | true =>
      simp only [if_true] at hxy
      rw [← gather_scatter _ 8 x hP hx, ← gather_scatter _ 8 y hP hy, hxy]
  have hsub : bitswap reverse data_map ⊆ List.range 256 := by
    intro v hv
    unfold bitswap at hv
    obtain ⟨x, _, hxv⟩ := List.mem_map.mp hv
    rw [List.mem_range, ← hxv]
    exact Nat.mod_lt _ (by decide)
  exact (List.subperm_of_subset hnd hsub).perm_of_length_le (by simp [bitswap])

theorem bitswap_table_bijection_witness :
    (bitswap true [3,0,1,2,7,6,5,4]).Perm (List.range 256) :=
  bitswap_table_bijection true [3,0,1,2,7,6,5,4] (by decide)

/-- C8: for every active width `W` in `9..19`, every `address_map` valid for
`W` and every offset `i < 2 ^ (W + 1)`, the output-index expression of the
`-r` loop undoes the one of the non `-r` loop, and conversely. -/
theorem address_remap_inverse (W : Nat) (address_map : List Nat) (i : Nat)
    (_h9 : 9 ≤ W) (h19 : W ≤ 19) (hA : valid_address_map W address_map)
    (hi : i < 2 ^ (W + 1)) :
    reverse_index address_map (forward_index address_map i) = i ∧
      forward_index address_map (reverse_index address_map i) = i :=
  ⟨reverse_forward_index W address_map i (by omega) hA hi,
    forward_reverse_index W address_map i (by omega) hA hi⟩

theorem address_remap_inverse_witness :
    reverse_index [1,2,0,3,4,5,6,7,8,9,10,11,12,13,14,15,16,17,18,19]
        (forward_index [1,2,0,3,4,5,6,7,8,9,10,11,12,13,14,15,16,17,18,19] 5) = 5 ∧
      forward_index [1,2,0,3,4,5,6,7,8,9,10,11,12,13,14,15,16,17,18,19]
        (reverse_index [1,2,0,3,4,5,6,7,8,9,10,11,12,13,14,15,16,17,18,19] 5) = 5 :=
  address_remap_inverse 9 [1,2,0,3,4,5,6,7,8,9,10,11,12,13,14,15,16,17,18,19] 5
    (by decide) (by decide) (by decide) (by decide)

/-- C9, as the code has it: for every active width `W` in `9..19`, every
`address_map` valid for `W` and every input offset `i < 2 ^ (W + 1)`, the
output offset of the forward (non `-r`) loop is the sum (equally the OR) over
`b = 0..W` of `bit_{address_map[b]}(i) << b`, so the bit at source position
`address_map[b]` moves to position `b`; the output offset of the reverse
(`-r`) loop is the OR (equally the sum) over `b = 0..W` of
`((i >> b) & 1) << address_map[b]`, so the bit at source position `b` moves to
position `address_map[b]`. -/
theorem address_direction (W : Nat) (address_map : List Nat) (i : Nat)
    (_h9 : 9 ≤ W) (h19 : W ≤ 19) (hA : valid_address_map W address_map)
    (hi : i < 2 ^ (W + 1)) :
    forward_index address_map i = sum_gather (fun b => address_map.getD b 0) (W + 1) i ∧
    forward_index address_map i = or_gather (fun b => address_map.getD b 0) (W + 1) i ∧
    reverse_index address_map i = or_scatter (fun b => address_map.getD b 0) (W + 1) i ∧
    reverse_index address_map i = sum_scatter (fun b => address_map.getD b 0) (W + 1) i := by
  have hW : W < 20 := by omega
  have hf := forward_index_active W address_map i hW hA hi
  have hr := reverse_index_active W address_map i hW hi
  refine ⟨?_, hf, hr, ?_⟩
  · rw [sum_gather_eq_or_gather]; exact hf
  · rw [sum_scatter_eq_or_scatter _ _ _ (valid_address_permOn W address_map hA).2.1]
    exact hr

theorem address_direction_witness :
    forward_index [1,2,0,3,4,5,6,7,8,9,10,11,12,13,14,15,16,17,18,19] 1 =
      sum_gather (fun b =>
        [1,2,0,3,4,5,6,7,8,9,10,11,12,13,14,15,16,17,18,19].getD b 0) (9 + 1) 1 ∧
    forward_index [1,2,0,3,4,5,6,7,8,9,10,11,12,13,14,15,16,17,18,19] 1 =
      or_gather (fun b =>
        [1,2,0,3,4,5,6,7,8,9,10,11,12,13,14,15,16,17,18,19].getD b 0) (9 + 1) 1 ∧
    reverse_index [1,2,0,3,4,5,6,7,8,9,10,11,12,13,14,15,16,17,18,19] 1 =
      or_scatter (fun b =>
        [1,2,0,3,4,5,6,7,8,9,10,11,12,13,14,15,16,17,18,19].getD b 0) (9 + 1) 1 ∧
    reverse_index [1,2,0,3,4,5,6,7,8,9,10,11,12,13,14,15,16,17,18,19] 1 =
      sum_scatter (fun b =>
        [1,2,0,3,4,5,6,7,8,9,10,11,12,13,14,15,16,17,18,19].getD b 0) (9 + 1) 1 :=
  address_direction 9 [1,2,0,3,4,5,6,7,8,9,10,11,12,13,14,15,16,17,18,19] 1
    (by decide) (by decide) (by decide) (by decide)

/-- C9 as stated fails: with `W = 9`, the valid `address_map` that sends
bit 0 to 1, bit 1 to 2 and bit 2 to 0, and `i = 1`, the forward (non `-r`)
output offset is 4 while `sum over b of bit_b(i) << address_map[b]` is 2, and
the reverse (`-r`) output offset is 2 while
`OR over b of ((i >> address_map[b]) & 1) << b` is 4. -/
theorem address_direction_as_stated_fails :
    valid_address_map 9 [1,2,0,3,4,5,6,7,8,9,10,11,12,13,14,15,16,17,18,19] ∧
    1 < 2 ^ (9 + 1) ∧
    forward_index [1,2,0,3,4,5,6,7,8,9,10,11,12,13,14,15,16,17,18,19] 1 = 4 ∧
    sum_scatter (fun b =>
      [1,2,0,3,4,5,6,7,8,9,10,11,12,13,14,15,16,17,18,19].getD b 0) (9 + 1) 1 = 2 ∧
    reverse_index [1,2,0,3,4,5,6,7,8,9,10,11,12,13,14,15,16,17,18,19] 1 = 2 ∧
    or_gather (fun b =>
      [1,2,0,3,4,5,6,7,8,9,10,11,12,13,14,15,16,17,18,19].getD b 0) (9 + 1) 1 = 4 := by
  decide

/-- C10: for every valid `data_map` and every `i` in `0..255`, the entry
`bitswap[i]` of the forward (non `-r`) table is
`OR over b = 0..7 of ((i >> data_map[b]) & 1) << b`, the entry of the reverse
(`-r`) table is `OR over b = 0..7 of ((i >> b) & 1) << data_map[b]`, and in
both modes the value computed is below 256, so the store into the byte entry
truncates nothing. -/
theorem byte_table_direction (data_map : List Nat) (i : Nat)
    (hD : valid_data_map data_map) (hi : i < 256) :
    (bitswap false data_map).getD i 0 = or_gather (fun b => data_map.getD b 0) 8 i ∧
    (bitswap true data_map).getD i 0 = or_scatter (fun b => data_map.getD b 0) 8 i ∧
    forward_byte data_map i < 256 ∧ reverse_byte data_map i < 256 := by
  refine ⟨bitswap_forward_val data_map i hi, bitswap_reverse_val data_map i hD hi, ?_, ?_⟩
  · rw [forward_byte_eq]; exact or_gather_lt _ 8 i
  · rw [reverse_byte_eq]; exact or_scatter_lt _ 8 i (valid_data_permOn data_map hD)

theorem byte_table_direction_witness :
    (bitswap false [3,0,1,2,7,6,5,4]).getD 0x42 0 =
      or_gather (fun b => [3,0,1,2,7,6,5,4].getD b 0) 8 0x42 ∧
    (bitswap true [3,0,1,2,7,6,5,4]).getD 0x42 0 =
      or_scatter (fun b => [3,0,1,2,7,6,5,4].getD b 0) 8 0x42 ∧
    forward_byte [3,0,1,2,7,6,5,4] 0x42 < 256 ∧ reverse_byte [3,0,1,2,7,6,5,4] 0x42 < 256 :=
  byte_table_direction [3,0,1,2,7,6,5,4] 0x42 (by decide) (by decide)

/-- C11, as the code has it: `diagram` prints 16 pin-pair rows if
`limit ≥ A16`, 14 rows if `A12 ≤ limit < A16`, and 12 rows otherwise; in
particular for the limit `A W` of every active width `W`.  With the tables
`main` passes, the text has that many lines besides the two header lines and
the footer line. -/
theorem diagram_row_truncation (source destination : List String) (limit : Nat) :
    (diagram_rows source destination limit).length =
      (if A 16 ≤ limit then 16 else if A 12 ≤ limit then 14 else 12) ∧
    (diagram_rows source destination limit).length = 16 - diagram_start limit ∧
    (∀ address_map data_map,
      line_count (diagram name (swapname address_map data_map) limit) =
        2 + (if A 16 ≤ limit then 16 else if A 12 ≤ limit then 14 else 12) + 1 ∧
      line_count (diagram (swapname address_map data_map) name limit) =
        2 + (if A 16 ≤ limit then 16 else if A 12 ≤ limit then 14 else 12) + 1) := by
  refine ⟨diagram_rows_length source destination limit, ?_, fun address_map data_map => ?_⟩
  · unfold diagram_rows diagram_indices
    rw [List.length_map, List.length_range']
  · constructor
    · rw [line_count_diagram _ _ limit no_newline_name
        (no_newline_swapname address_map data_map), diagram_rows_length]
    · rw [line_count_diagram _ _ limit (no_newline_swapname address_map data_map)
        no_newline_name, diagram_rows_length]

/-- C11 as stated fails: for the limit `A 9` of a 1 KiB image `diagram` prints
12 rows where the claim has 4, and for the limit `A 12` it prints 14 rows
where the claim has 8. -/
theorem diagram_row_truncation_as_stated_fails :
    (diagram_rows name name (A 9)).length = 12 ∧ stated_row_count (A 9) = 4 ∧
    (diagram_rows name name (A 12)).length = 14 ∧ stated_row_count (A 12) = 8 := by
  decide

/-- C12: when the `NONE` entry of both name tables is the empty string (as it
is for `name` and for every `swapname`), `diagram` prints one row for each
index `i` with `diagram_start limit ≤ i < 16`, in this order and no other row,
and in the row of `i`, for its left pin `jedec[i]` and its right pin
`jedec[31-i]` alike: if the pin's signal index is greater than `limit`, the
source name and the destination name printed are both empty; otherwise they
are `source[signal]` and `destination[signal]`.  In particular a pin of an
address line above the active width is printed with empty names. -/
theorem diagram_blanking (source destination : List String) (limit : Nat)
    (hs : source.getD NONE "" = "") (hd : destination.getD NONE "" = "") :
    (∀ r, r ∈ diagram_rows source destination limit →
      ∃ i, diagram_start limit ≤ i ∧ i < 16 ∧ r = diagram_row source destination limit i ∧
        (limit < jedec.getD i 0 → r.left_source = "" ∧ r.left_destination = "") ∧
        (jedec.getD i 0 ≤ limit →
          r.left_source = source.getD (jedec.getD i 0) "" ∧
          r.left_destination = destination.getD (jedec.getD i 0) "") ∧
        (limit < jedec.getD (31 - i) 0 → r.right_source = "" ∧ r.right_destination = "") ∧
        (jedec.getD (31 - i) 0 ≤ limit →
          r.right_source = source.getD (jedec.getD (31 - i) 0) "" ∧
          r.right_destination = destination.getD (jedec.getD (31 - i) 0) "")) ∧
    (diagram_rows source destination limit).length = 16 - diagram_start limit ∧
    (∀ i, diagram_start limit ≤ i → i < 16 →
      ∃ r, (diagram_rows source destination limit)[i - diagram_start limit]? = some r ∧
        (limit < jedec.getD i 0 → r.left_source = "" ∧ r.left_destination = "") ∧
        (jedec.getD i 0 ≤ limit →
          r.left_source = source.getD (jedec.getD i 0) "" ∧
          r.left_destination = destination.getD (jedec.getD i 0) "") ∧
        (limit < jedec.getD (31 - i) 0 → r.right_source = "" ∧ r.right_destination = "") ∧
        (jedec.getD (31 - i) 0 ≤ limit →
          r.right_source = source.getD (jedec.getD (31 - i) 0) "" ∧
          r.right_destination = destination.getD (jedec.getD (31 - i) 0) "")) ∧
    diagram source destination limit =
      "      ___ ___\n" ++ "     |   U   |\n" ++
        String.join ((List.range' (diagram_start limit) (16 - diagram_start limit)).map
          (fun i => format_row (diagram_row source destination limit i))) ++
        "     |_______|\n" ∧
    (∀ W b p, limit = A W → W < b → jedec.getD p 0 = A b →
      source.getD (pin_signal limit p) "" = "" ∧
      destination.getD (pin_signal limit p) "" = "") ∧
    name.getD NONE "" = "" ∧
    (∀ address_map data_map, (swapname address_map data_map).getD NONE "" = "") := by
  refine ⟨?_, ?_, ?_, diagram_text_eq source destination limit, ?_, rfl, swapname_none⟩
  · intro r hr
    unfold diagram_rows diagram_indices at hr
    obtain ⟨i, hi, rfl⟩ := List.mem_map.mp hr
    rw [List.mem_range'_1] at hi
    have hstart := diagram_start_le limit
    exact ⟨i, hi.1, by omega, rfl, diagram_row_blanking source destination limit i hs hd⟩
  · unfold diagram_rows diagram_indices
    rw [List.length_map, List.length_range']
  · intro i h1 h2
    exact ⟨diagram_row source destination limit i,
      diagram_rows_getElem? source destination limit i h1 h2,
      diagram_row_blanking source destination limit i hs hd⟩
  · intro W b p hl hWb hp
    have : limit < jedec.getD p 0 := by rw [hp, hl]; unfold A; omega
    rw [(pin_signal_eq limit p).1 this]
    exact ⟨hs, hd⟩

theorem diagram_blanking_witness :
    (∀ r, r ∈ diagram_rows name (swapname [1,0,2,3,4,5,6,7,8,9,10,11,12,13,14,15,16,17,18,19] default_data_map) (A 9) →
      ∃ i, diagram_start (A 9) ≤ i ∧ i < 16 ∧ r = diagram_row name (swapname [1,0,2,3,4,5,6,7,8,9,10,11,12,13,14,15,16,17,18,19] default_data_map) (A 9) i ∧
        (A 9 < jedec.getD i 0 → r.left_source = "" ∧ r.left_destination = "") ∧
        (jedec.getD i 0 ≤ A 9 →
          r.left_source = name.getD (jedec.getD i 0) "" ∧
          r.left_destination = (swapname [1,0,2,3,4,5,6,7,8,9,10,11,12,13,14,15,16,17,18,19] default_data_map).getD (jedec.getD i 0) "") ∧
        (A 9 < jedec.getD (31 - i) 0 → r.right_source = "" ∧ r.right_destination = "") ∧
        (jedec.getD (31 - i) 0 ≤ A 9 →
          r.right_source = name.getD (jedec.getD (31 - i) 0) "" ∧
          r.right_destination = (swapname [1,0,2,3,4,5,6,7,8,9,10,11,12,13,14,15,16,17,18,19] default_data_map).getD (jedec.getD (31 - i) 0) "")) ∧
    (diagram_rows name (swapname [1,0,2,3,4,5,6,7,8,9,10,11,12,13,14,15,16,17,18,19] default_data_map) (A 9)).length = 16 - diagram_start (A 9) ∧
    (∀ i, diagram_start (A 9) ≤ i → i < 16 →
      ∃ r, (diagram_rows name (swapname [1,0,2,3,4,5,6,7,8,9,10,11,12,13,14,15,16,17,18,19] default_data_map) (A 9))[i - diagram_start (A 9)]? = some r ∧
        (A 9 < jedec.getD i 0 → r.left_source = "" ∧ r.left_destination = "") ∧
        (jedec.getD i 0 ≤ A 9 →
          r.left_source = name.getD (jedec.getD i 0) "" ∧
          r.left_destination = (swapname [1,0,2,3,4,5,6,7,8,9,10,11,12,13,14,15,16,17,18,19] default_data_map).getD (jedec.getD i 0) "") ∧
        (A 9 < jedec.getD (31 - i) 0 → r.right_source = "" ∧ r.right_destination = "") ∧
        (jedec.getD (31 - i) 0 ≤ A 9 →
          r.right_source = name.getD (jedec.getD (31 - i) 0) "" ∧
          r.right_destination = (swapname [1,0,2,3,4,5,6,7,8,9,10,11,12,13,14,15,16,17,18,19] default_data_map).getD (jedec.getD (31 - i) 0) "")) ∧
    diagram name (swapname [1,0,2,3,4,5,6,7,8,9,10,11,12,13,14,15,16,17,18,19] default_data_map) (A 9) =
      "      ___ ___\n" ++ "     |   U   |\n" ++
        String.join ((List.range' (diagram_start (A 9)) (16 - diagram_start (A 9))).map
          (fun i => format_row (diagram_row name (swapname [1,0,2,3,4,5,6,7,8,9,10,11,12,13,14,15,16,17,18,19] default_data_map) (A 9) i))) ++
        "     |_______|\n" ∧
    (∀ W b p, A 9 = A W → W < b → jedec.getD p 0 = A b →
      name.getD (pin_signal (A 9) p) "" = "" ∧
      (swapname [1,0,2,3,4,5,6,7,8,9,10,11,12,13,14,15,16,17,18,19] default_data_map).getD (pin_signal (A 9) p) "" = "") ∧
    name.getD NONE "" = "" ∧
    (∀ address_map data_map, (swapname address_map data_map).getD NONE "" = "") :=
  diagram_blanking name
    (swapname [1,0,2,3,4,5,6,7,8,9,10,11,12,13,14,15,16,17,18,19] default_data_map)
    (A 9) rfl (swapname_none _ _)

/-- C13, as the code has it: when no row is skipped (`limit ≥ A16`) and no
name contains a newline, the text `diagram` produces is exactly 19 lines: two
header lines, 16 pin-pair lines and one footer line. -/
theorem diagram_size (source destination : List String) (limit : Nat)
    (hs : no_newline source) (hd : no_newline destination) (h16 : A 16 ≤ limit) :
    line_count (diagram source destination limit) = 19 ∧
    (diagram_rows source destination limit).length = 16 := by
  have hrows : (diagram_rows source destination limit).length = 16 := by
    rw [diagram_rows_length, if_pos h16]
  exact ⟨by rw [line_count_diagram source destination limit hs hd, hrows], hrows⟩

theorem diagram_size_witness :
    line_count (diagram name
      (swapname [1,0,2,3,4,5,6,7,8,9,10,11,12,13,14,15,16,17,18,19] default_data_map)
      (A 19)) = 19 ∧
    (diagram_rows name
      (swapname [1,0,2,3,4,5,6,7,8,9,10,11,12,13,14,15,16,17,18,19] default_data_map)
      (A 19)).length = 16 :=
  diagram_size name
    (swapname [1,0,2,3,4,5,6,7,8,9,10,11,12,13,14,15,16,17,18,19] default_data_map)
    (A 19) no_newline_name (no_newline_swapname _ _) (by decide)

/-- C13 as stated fails: the text `diagram` produces for the full-size limit
`A 19` with the table `name` on both sides has 19 lines, not 18. -/
theorem diagram_size_as_stated_fails :
    A 16 ≤ A 19 ∧ line_count (diagram name name (A 19)) = 19 ∧
    line_count (diagram name name (A 19)) ≠ 18 := by
  have h : line_count (diagram name name (A 19)) = 19 := by
    rw [line_count_diagram name name (A 19) no_newline_name no_newline_name,
      diagram_rows_length, if_pos (by decide)]
  refine ⟨by decide, h, ?_⟩
  rw [h]; decide

/-- C14: the `jedec` table has 32 entries, all of them valid indices into the
29-entry `name` table; each of the 28 signals `D0..D7` (1..8) and `A0..A19`
(9..28) is at exactly one pin position, and the remaining four positions hold
`NONE`. -/
theorem pinout_table_invariant :
    jedec.length = 32 ∧ name.length = 29 ∧
    (∀ p, p < 32 → jedec.getD p 0 < 29) ∧
    (∀ s, s < 29 → 1 ≤ s → jedec.count s = 1) ∧
    (∀ b, b < 8 → jedec.count (D b) = 1) ∧
    (∀ b, b < 20 → jedec.count (A b) = 1) ∧
    jedec.count NONE = 4 := by
  decide

/-- C15: for every active width `W` in `9..19`, every `address_map` valid for
`W` (entries above `W` the identity) and every `i < 2 ^ (W + 1)`, the 20-term
output index is below `2 ^ (W + 1)` in forward and in reverse mode, each term
for a bit `b > W` is 0, and the copy loop over an image of `2 ^ (W + 1)` bytes
completes without a write outside the output buffer. -/
theorem output_index_in_bounds (reverse : Bool) (W : Nat)
    (address_map data_map image buffer : List Nat) (i : Nat)
    (_h9 : 9 ≤ W) (h19 : W ≤ 19) (hA : valid_address_map W address_map)
    (hlen : image.length = 2 ^ (W + 1)) (hb : buffer.length = image.length)
    (hi : i < 2 ^ (W + 1)) :
    forward_index address_map i < 2 ^ (W + 1) ∧
    reverse_index address_map i < 2 ^ (W + 1) ∧
    (∀ b, W < b → b < 20 →
      (i >>> address_map.getD b 0 &&& 1) <<< b = 0 ∧
      (i >>> b &&& 1) <<< address_map.getD b 0 = 0) ∧
    (∃ out, transform reverse address_map data_map image buffer = some out ∧
      out.length = image.length) := by
  have hW : W < 20 := by omega
  refine ⟨forward_index_lt W address_map i hW hA hi,
    reverse_index_lt W address_map i hW hA hi, ?_, ?_⟩
  · intro b hWb hb20
    constructor
    · rw [hA.2.2 b hb20 hWb]
      exact bit_shl_zero_of_lt i b b (W + 1) hi (by omega)
    · exact bit_shl_zero_of_lt i b _ (W + 1) hi (by omega)
  · obtain ⟨out, hrun, hl, _⟩ :=
      transform_spec reverse W address_map data_map image buffer hW hA hlen hb
    exact ⟨out, hrun, hl⟩

theorem output_index_in_bounds_witness :
    forward_index [1,2,0,3,4,5,6,7,8,9,10,11,12,13,14,15,16,17,18,19] 1023 < 2 ^ (9 + 1) ∧
    reverse_index [1,2,0,3,4,5,6,7,8,9,10,11,12,13,14,15,16,17,18,19] 1023 < 2 ^ (9 + 1) ∧
    (∀ b, 9 < b → b < 20 →
      (1023 >>> [1,2,0,3,4,5,6,7,8,9,10,11,12,13,14,15,16,17,18,19].getD b 0 &&& 1) <<< b
        = 0 ∧
      (1023 >>> b &&& 1) <<< [1,2,0,3,4,5,6,7,8,9,10,11,12,13,14,15,16,17,18,19].getD b 0
        = 0) ∧
    (∃ out, transform true [1,2,0,3,4,5,6,7,8,9,10,11,12,13,14,15,16,17,18,19]
        [3,0,1,2,7,6,5,4] ((List.replicate 1024 0).set 5 0x42) (List.replicate 1024 0)
        = some out ∧
      out.length = ((List.replicate 1024 0).set 5 0x42).length) :=
  output_index_in_bounds true 9 [1,2,0,3,4,5,6,7,8,9,10,11,12,13,14,15,16,17,18,19]
    [3,0,1,2,7,6,5,4] ((List.replicate 1024 0).set 5 0x42) (List.replicate 1024 0) 1023
    (by decide) (by decide) (by decide)
    (by rw [List.length_set, List.length_replicate]; rfl)
    (by rw [List.length_set]) (by decide)

/-- C16, as the code has it: processing an `-a` option for an active width
`W` in `9..19` stores only into entries of `address_map[0..W]`.  The loop
visits `j = W, W-1, ...` in this order, once each: all of them down to `j = 0`
when the option supplies at least `W + 1` fields, otherwise only as many as
there are fields, the run then ending at the `!string` test.  Whether the
option is accepted or rejected, the map has 20 entries afterwards, every entry
not visited is unchanged, and `address_map[j] == j` still holds for every `j`
in `W+1..19` if it held before; an accepted option yields exactly this map. -/
theorem entries_above_width_stay (w W : Nat) (fields : List (Option Nat))
    (address_map : List Nat) (_h9 : 9 ≤ W) (_h19 : W ≤ 19)
    (hlen : address_map.length = 20) :
    (address_scan_trace (W + 1) fields address_map).1 =
      (List.range (min (W + 1) fields.length)).map (fun k => W - k) ∧
    (W + 1 ≤ fields.length →
      (address_scan_trace (W + 1) fields address_map).1 =
        (List.range (W + 1)).map (fun k => W - k)) ∧
    (address_scan_trace (W + 1) fields address_map).2.length = 20 ∧
    (∀ j, j ∉ (address_scan_trace (W + 1) fields address_map).1 →
      (address_scan_trace (W + 1) fields address_map).2.getD j 0 = address_map.getD j 0) ∧
    (∀ j, W < j →
      (address_scan_trace (W + 1) fields address_map).2.getD j 0 = address_map.getD j 0) ∧
    ((∀ j, j < 20 → W < j → address_map.getD j 0 = j) →
      ∀ j, j < 20 → W < j →
        (address_scan_trace (W + 1) fields address_map).2.getD j 0 = j) ∧
    (∀ m, parse_address w W fields address_map = some m →
      m = (address_scan_trace (W + 1) fields address_map).2) := by
  obtain ⟨h1, h2, h3⟩ := address_scan_trace_spec (W + 1) fields address_map
  have hvis : (address_scan_trace (W + 1) fields address_map).1 =
      (List.range (min (W + 1) fields.length)).map (fun k => W - k) := by
    rw [h1]
    apply List.map_congr_left
    intro k _
    omega
  have habove : ∀ j, W < j →
      (address_scan_trace (W + 1) fields address_map).2.getD j 0 = address_map.getD j 0 := by
    intro j hj
    apply h3
    intro hmem
    have := address_scan_trace_visited_lt (W + 1) fields address_map j hmem
    omega
  refine ⟨hvis, ?_, by rw [h2, hlen], h3, habove, ?_, ?_⟩
  · intro hf
    rw [hvis, Nat.min_eq_left hf]
  · intro hid j hj hWj
    rw [habove j hWj]
    exact hid j hj hWj
  · intro m hm
    unfold parse_address at hm
    cases hs : address_scan w (W + 1) fields address_map 0 with
    | none => rw [hs] at hm; simp at hm
    | some r =>
      obtain ⟨m', b⟩ := r
      rw [hs] at hm
      simp only [] at hm
      split at hm
      · simp at hm
      · simp only [Option.some.injEq] at hm
        rw [← hm]
        exact address_scan_map_eq_trace w (W + 1) fields address_map 0 m' b hs

theorem entries_above_width_stay_witness :
    (address_scan_trace (9 + 1) ([9,8,7,6,5,4,3,2,0,31].map some) default_address_map).1 =
      (List.range (min (9 + 1) ([9,8,7,6,5,4,3,2,0,31].map some).length)).map
        (fun k => 9 - k) ∧
    (9 + 1 ≤ ([9,8,7,6,5,4,3,2,0,31].map some).length →
      (address_scan_trace (9 + 1) ([9,8,7,6,5,4,3,2,0,31].map some) default_address_map).1 =
        (List.range (9 + 1)).map (fun k => 9 - k)) ∧
    (address_scan_trace (9 + 1) ([9,8,7,6,5,4,3,2,0,31].map some)
      default_address_map).2.length = 20 ∧
    (∀ j, j ∉ (address_scan_trace (9 + 1) ([9,8,7,6,5,4,3,2,0,31].map some)
        default_address_map).1 →
      (address_scan_trace (9 + 1) ([9,8,7,6,5,4,3,2,0,31].map some)
        default_address_map).2.getD j 0 = default_address_map.getD j 0) ∧
    (∀ j, 9 < j →
      (address_scan_trace (9 + 1) ([9,8,7,6,5,4,3,2,0,31].map some)
        default_address_map).2.getD j 0 = default_address_map.getD j 0) ∧
    ((∀ j, j < 20 → 9 < j → default_address_map.getD j 0 = j) →
      ∀ j, j < 20 → 9 < j →
        (address_scan_trace (9 + 1) ([9,8,7,6,5,4,3,2,0,31].map some)
          default_address_map).2.getD j 0 = j) ∧
    (∀ m, parse_address 64 9 ([9,8,7,6,5,4,3,2,0,31].map some) default_address_map = some m →
      m = (address_scan_trace (9 + 1) ([9,8,7,6,5,4,3,2,0,31].map some)
        default_address_map).2) :=
  entries_above_width_stay 64 9 ([9,8,7,6,5,4,3,2,0,31].map some) default_address_map
    (by decide) (by decide) rfl

/-- C16 as stated fails: for `W = 9` and the option `-a5`, which has one
field, the loop visits `j = 9` only and the run ends at the `!string` test of
the next iteration; it does not visit `j = 9, 8, ..., 0`. -/
theorem entries_above_width_as_stated_fails :
    (address_scan_trace (9 + 1) [some 5] default_address_map).1 = [9] ∧
    (List.range (9 + 1)).map (fun k => 9 - k) = [9, 8, 7, 6, 5, 4, 3, 2, 1, 0] ∧
    (address_scan_trace (9 + 1) [some 5] default_address_map).2 =
      [0,1,2,3,4,5,6,7,8,5,10,11,12,13,14,15,16,17,18,19] ∧
    parse_address 64 9 [some 5] default_address_map = none := by
  decide

/-- C17, as the code has it: when the option loop, having processed the
arguments `pre`, meets an `-a` or `-d` option that fails its check, the run
ends in failure, no transform step has run, nothing has been written and no
diagram printed.  The files opened for writing are those opened while `pre`
was processed: the file of an `-o` option that precedes the failing option
has been created or truncated, and none has when no `-o` precedes it. -/
theorem abort_on_invalid_permutation (w : Nat) (writable : String → Bool)
    (pre post : List Arg) (bad : Arg) (options : Options) (opened : List String)
    (input buffer : List Nat) (highest_address_bit : Nat)
    (hsize : size_check input.length = .ok highest_address_bit)
    (hpre : option_loop w highest_address_bit writable pre initial_options []
      = (some options, opened))
    (hbad : (bad.text.data.take 2 = ['-', 'a'] ∧
          parse_address w highest_address_bit bad.fields options.address_map = none) ∨
        (bad.text.data.take 2 = ['-', 'd'] ∧
          parse_data bad.fields options.data_map = none)) :
    main_run w writable (pre ++ bad :: post) input buffer =
      { success := false, opened := opened, written := none, printed := none } ∧
    opened = options.outfile.toList ∧
    ((∀ a, a ∈ pre → a.text ≠ "-o") → opened = []) := by
  have hop := option_loop_opened w highest_address_bit writable pre initial_options options
    [] opened hpre
  refine ⟨?_, hop.1 rfl, hop.2⟩
  apply main_run_of_loop_failure w writable _ input buffer highest_address_bit opened hsize
  rw [option_loop_append w highest_address_bit writable pre (bad :: post) initial_options
    options [] opened hpre]
  exact option_loop_fails_at w highest_address_bit writable bad post options opened hbad

theorem abort_on_invalid_permutation_witness :
    main_run 64 (fun _ => true)
        ([⟨"-r", []⟩, ⟨"-o", []⟩, ⟨"out.bin", []⟩] ++ ⟨"-d7,6,5,4,3,2,1,1",
          [7,6,5,4,3,2,1,1].map some⟩ :: [])
        (List.replicate 1024 0) (List.replicate 1024 0) =
      { success := false, opened := ["out.bin"], written := none, printed := none } ∧
    ["out.bin"] = (Options.mk default_address_map default_data_map true
      (some "out.bin")).outfile.toList ∧
    ((∀ a, a ∈ ([⟨"-r", []⟩, ⟨"-o", []⟩, ⟨"out.bin", []⟩] : List Arg) → a.text ≠ "-o") →
      ["out.bin"] = []) :=
  abort_on_invalid_permutation 64 (fun _ => true)
    [⟨"-r", []⟩, ⟨"-o", []⟩, ⟨"out.bin", []⟩] []
    ⟨"-d7,6,5,4,3,2,1,1", [7,6,5,4,3,2,1,1].map some⟩
    (Options.mk default_address_map default_data_map true (some "out.bin"))
    ["out.bin"] (List.replicate 1024 0) (List.replicate 1024 0) 9
    (by rw [List.length_replicate]; rfl) (by decide) (Or.inr ⟨by decide, by decide⟩)

/-- C17 as stated fails: for the command line `-o out.bin -a9 <input>` with a
1 KiB input, the `-a` option fails its check and the run ends in failure with
nothing written, yet `out.bin` has been opened for writing (created or
truncated) before; with the two options in the other order it has not. -/
theorem abort_on_invalid_permutation_as_stated_fails :
    main_run 64 (fun _ => true) [⟨"-o", []⟩, ⟨"out.bin", []⟩, ⟨"-a9", [some 9]⟩]
        (List.replicate 1024 0) (List.replicate 1024 0) =
      { success := false, opened := ["out.bin"], written := none, printed := none } ∧
    parse_address 64 9 [some 9] default_address_map = none ∧
    main_run 64 (fun _ => true) [⟨"-a9", [some 9]⟩, ⟨"-o", []⟩, ⟨"out.bin", []⟩]
        (List.replicate 1024 0) (List.replicate 1024 0) =
      { success := false, opened := [], written := none, printed := none } := by
  have hsize : size_check ((List.replicate 1024 0).length : Nat) = .ok 9 := by
    rw [List.length_replicate]; rfl
  refine ⟨?_, by decide, ?_⟩
  · exact main_run_of_loop_failure 64 _ _ _ _ 9 ["out.bin"] hsize (by decide)
  · exact main_run_of_loop_failure 64 _ _ _ _ 9 [] hsize (by decide)

/-- C18: for every active width `W` in `9..19`, valid `address_map` and
`data_map`, and maps `address_map'`, `data_map'` that invert them
(`address_map'[address_map[b]] = b` for `b ≤ W`, identity above `W`,
`data_map'[data_map[b]] = b`), the reverse (`-r`) transform with
`(address_map, data_map)` and the forward transform with
`(address_map', data_map')` run to the same output on every image of
`2 ^ (W + 1)` bytes; so when both maps are their own inverses the `-r` flag
does not change the output. -/
theorem reverse_is_forward_with_inverse_maps (W : Nat)
    (address_map data_map address_map' data_map' image buffer₁ buffer₂ : List Nat)
    (_h9 : 9 ≤ W) (h19 : W ≤ 19)
    (hA : valid_address_map W address_map) (hD : valid_data_map data_map)
    (hAinv : ∀ b, b ≤ W → address_map'.getD (address_map.getD b 0) 0 = b)
    (hAid : ∀ b, b < 20 → W < b → address_map'.getD b 0 = b)
    (hDinv : ∀ b, b < 8 → data_map'.getD (data_map.getD b 0) 0 = b)
    (hlen : image.length = 2 ^ (W + 1)) (hbytes : is_bytes image)
    (hb₁ : buffer₁.length = image.length) (hb₂ : buffer₂.length = image.length) :
    (∃ out, transform true address_map data_map image buffer₁ = some out ∧
      transform false address_map' data_map' image buffer₂ = some out) ∧
    ((∀ b, b ≤ W → address_map.getD (address_map.getD b 0) 0 = b) →
      (∀ b, b < 8 → data_map.getD (data_map.getD b 0) 0 = b) →
      transform true address_map data_map image buffer₁ =
        transform false address_map data_map image buffer₂) := by
  constructor
  · obtain ⟨out, hrun, _, _⟩ :=
      transform_spec true W address_map data_map image buffer₁ (by omega) hA hlen hb₁
    refine ⟨out, hrun, ?_⟩
    rw [← reverse_eq_forward_inverse W address_map data_map address_map' data_map' image
      buffer₁ buffer₂ h19 hA hD hAinv hAid hDinv hlen hbytes hb₁ hb₂]
    exact hrun
  · intro hAself hDself
    exact reverse_eq_forward_inverse W address_map data_map address_map data_map image
      buffer₁ buffer₂ h19 hA hD hAself hA.2.2 hDself hlen hbytes hb₁ hb₂

theorem reverse_is_forward_with_inverse_maps_witness :
    (∃ out, transform true [1,2,0,3,4,5,6,7,8,9,10,11,12,13,14,15,16,17,18,19]
        [3,0,1,2,7,6,5,4] ((List.replicate 1024 0).set 5 0x42) (List.replicate 1024 0)
        = some out ∧
      transform false [2,0,1,3,4,5,6,7,8,9,10,11,12,13,14,15,16,17,18,19]
        [1,2,3,0,7,6,5,4] ((List.replicate 1024 0).set 5 0x42) (List.replicate 1024 7)
        = some out) ∧
    ((∀ b, b ≤ 9 → [1,2,0,3,4,5,6,7,8,9,10,11,12,13,14,15,16,17,18,19].getD
        ([1,2,0,3,4,5,6,7,8,9,10,11,12,13,14,15,16,17,18,19].getD b 0) 0 = b) →
      (∀ b, b < 8 → [3,0,1,2,7,6,5,4].getD ([3,0,1,2,7,6,5,4].getD b 0) 0 = b) →
      transform true [1,2,0,3,4,5,6,7,8,9,10,11,12,13,14,15,16,17,18,19]
        [3,0,1,2,7,6,5,4] ((List.replicate 1024 0).set 5 0x42) (List.replicate 1024 0) =
        transform false [1,2,0,3,4,5,6,7,8,9,10,11,12,13,14,15,16,17,18,19]
          [3,0,1,2,7,6,5,4] ((List.replicate 1024 0).set 5 0x42)
          (List.replicate 1024 7)) :=
  reverse_is_forward_with_inverse_maps 9
    [1,2,0,3,4,5,6,7,8,9,10,11,12,13,14,15,16,17,18,19] [3,0,1,2,7,6,5,4]
    [2,0,1,3,4,5,6,7,8,9,10,11,12,13,14,15,16,17,18,19] [1,2,3,0,7,6,5,4]
    ((List.replicate 1024 0).set 5 0x42) (List.replicate 1024 0) (List.replicate 1024 7)
    (by decide) (by decide) (by decide) (by decide) (by decide) (by decide) (by decide)
    (by rw [List.length_set, List.length_replicate]; rfl)
    (is_bytes_single 1024 5 0x42 (by decide))
    (by rw [List.length_set]) (by rw [List.length_set, List.length_replicate, List.length_replicate])

/-- C19: for every active width `W` in `9..19` and `limit = A W`, every active
signal (index `1..limit`) is at exactly one pin position of the rows `diagram`
prints, and both pins of every skipped row are `NONE` or a signal above
`limit`; hence, in the diagram `main` prints with valid maps (with or without
`-r`), each active signal name occurs exactly once among the source-side names
and exactly once among the destination-side names. -/
theorem truncation_drops_no_active_pin (reverse : Bool) (W : Nat)
    (address_map data_map : List Nat) (h9 : 9 ≤ W) (h19 : W ≤ 19)
    (hA : valid_address_map W address_map) (hD : valid_data_map data_map) :
    (∀ s, 1 ≤ s → s ≤ A W →
      ((displayed_pins (A W)).map (fun p => jedec.getD p 0)).count s = 1) ∧
    (∀ i, i < diagram_start (A W) →
      (jedec.getD i 0 = NONE ∨ A W < jedec.getD i 0) ∧
      (jedec.getD (31 - i) 0 = NONE ∨ A W < jedec.getD (31 - i) 0)) ∧
    (∀ s, 1 ≤ s → s ≤ A W →
      (source_names (main_diagram_rows reverse address_map data_map W)).count
        (name.getD s "") = 1 ∧
      (destination_names (main_diagram_rows reverse address_map data_map W)).count
        (name.getD s "") = 1) := by
  have hlimit : A W ≤ 28 := by unfold A; omega
  refine ⟨fun s h1 hs => displayed_jedec_count W h9 h19 s (by omega) h1 hs,
    skipped_rows_inactive W h9 h19, fun s h1 hs => ?_⟩
  have h := count_table_names W address_map data_map h9 h19 hA hD s h1 hs
  unfold main_diagram_rows
  cases reverse with
  | false =>
    simp only [Bool.false_eq_true, if_false]
    rw [source_names_eq, destination_names_eq]
    exact h
  | true =>
    simp only [if_true]
    rw [source_names_eq, destination_names_eq]
    exact ⟨h.2, h.1⟩

theorem truncation_drops_no_active_pin_witness :
    (∀ s, 1 ≤ s → s ≤ A 9 →
      ((displayed_pins (A 9)).map (fun p => jedec.getD p 0)).count s = 1) ∧
    (∀ i, i < diagram_start (A 9) →
      (jedec.getD i 0 = NONE ∨ A 9 < jedec.getD i 0) ∧
      (jedec.getD (31 - i) 0 = NONE ∨ A 9 < jedec.getD (31 - i) 0)) ∧
    (∀ s, 1 ≤ s → s ≤ A 9 →
      (source_names (main_diagram_rows false
        [1,2,0,3,4,5,6,7,8,9,10,11,12,13,14,15,16,17,18,19] [3,0,1,2,7,6,5,4] 9)).count
        (name.getD s "") = 1 ∧
      (destination_names (main_diagram_rows false
        [1,2,0,3,4,5,6,7,8,9,10,11,12,13,14,15,16,17,18,19] [3,0,1,2,7,6,5,4] 9)).count
        (name.getD s "") = 1) :=
  truncation_drops_no_active_pin false 9
    [1,2,0,3,4,5,6,7,8,9,10,11,12,13,14,15,16,17,18,19] [3,0,1,2,7,6,5,4]
    (by decide) (by decide) (by decide) (by decide)

end Pinswap
